import Mathlib

/-!
# Verification of the HFS VFS administration operations

Shallow embedding of the VFS tree-mutation API (`admin-apis`: `get_vfs`,
`move_vfs`, `set_vfs`, `add_vfs`, `del_vfs`, `get_ls`) and of the node-local
helpers (`pickProps`, `simplifyName`), together with theorems settling the
stated properties.

Modelling conventions:
* JS node objects become `VfsNode`: a partial map `fields : String → Option PVal`
  for the assignable properties (`name`, `source`, `masks`, `default`, `accept`
  and the permission keys), plus a separate `children : Option (List Nat)`
  holding child node ids.  A property that is absent and a property that is
  present with value `undefined` are collapsed to `none` (every observation the
  API makes — truthiness, `getNodeName`, strict comparison against a string —
  agrees on the two).
* The mutable object graph becomes an explicit store `Store := List VfsNode`;
  node identity (JS reference equality, `indexOf`, `_.pull`) becomes equality
  of indices into the store.  The root global `vfs` becomes a distinguished
  index `rootId`.
* `urlToNode` lives in `vfs.ts`, which is not part of the sources; the
  operations are therefore parameterized by a resolver
  `res : Store → String → Option Nat` standing for the resolution performed by
  `urlToNodeOriginal` (resolve the URI, then dereference a materialized node to
  its `original`).
* Fallible operations return `(Except errorCode result) × Store`, the second
  component being the (possibly unchanged) store after the call.
-/

namespace HfsVfs

/-- A JSON-ish property value as stored on a node or sent in a payload.
`obj id` stands for an arbitrary object value (its contents are never
inspected by the operations modelled here, only its `typeof`). -/
inductive PVal where
  | str (s : String)
  | bool (b : Bool)
  | num (v : Int)
  | obj (id : Nat)
deriving DecidableEq, Repr

/-- JS truthiness of a property value. -/
def PVal.truthy : PVal → Bool
  | .str s => s ≠ ""
  | .bool b => b
  | .num v => v ≠ 0
  | .obj _ => true

/-- `typeof v === 'object'` for a (non-null) value. -/
def PVal.isObj : PVal → Bool
  | .obj _ => true
  | _ => false

/-- A payload value: JSON `null` or a proper value. -/
inductive JVal where
  | null
  | val (v : PVal)
deriving DecidableEq, Repr

/-- A request payload object: partial map from property name to value
(`none` = key not present). -/
abbrev Payload := String → Option JVal

/-- A node of the VFS tree.  `fields` holds the assignable scalar properties;
`children` holds the ordered child id list (`none` = field absent). -/
structure VfsNode where
  fields : String → Option PVal
  children : Option (List Nat)

instance : Inhabited VfsNode := ⟨{ fields := fun _ => none, children := none }⟩

/-- The node store: the object graph, nodes addressed by index. -/
abbrev Store := List VfsNode

/-- Read a node from the store (out-of-range reads give the default node,
which has no fields and no children). -/
def getN (st : Store) (i : Nat) : VfsNode := List.getD st i default

/-- Write a node into the store (out-of-range writes are no-ops, matching
`List.set`). -/
def setN (st : Store) (i : Nat) (n : VfsNode) : Store := List.set st i n

/-- Resolution of a URI to the id of the *original* node behind it, standing
for the external `urlToNodeOriginal` (its `urlToNode` lives in `vfs.ts`,
outside the given sources). -/
abbrev Resolver := Store → String → Option Nat

/-- Modelled from the spec: the recognized permission keys (`PERM_KEYS` is
imported from `misc`, which is not among the given sources); §3 names
"read, list, upload, delete, archive-download" capabilities. -/
def PERM_KEYS : List String :=
  ["can_read", "can_see", "can_upload", "can_delete", "can_archive"]

/-- The whitelist of mutable fields used by `set_vfs`. -/
def SET_WHITELIST : List String :=
  ["name", "source", "masks", "default", "accept"] ++ PERM_KEYS

/-- Split a character list on a separator character. -/
def splitChar (c : Char) : List Char → List Char → List (List Char)
  | [], acc => [acc.reverse]
  | x :: xs, acc =>
    if x = c then acc.reverse :: splitChar c xs [] else splitChar c xs (x :: acc)

/-- The nonempty `/`-separated segments of a string. -/
def pathSegs (s : String) : List (List Char) :=
  (splitChar '/' s.data []).filter (fun p => p ≠ [])

/-- Modelled from the spec: base name of a path (the `path` module is external);
the last nonempty `/`-separated segment. -/
def basenameOf (s : String) : String :=
  match (pathSegs s).getLast? with
  | some cs => ⟨cs⟩
  | none => ""

/-- The effective-name fallback: base name of the node's `source` (empty when
there is no source). -/
def sourceBase (n : VfsNode) : String :=
  match n.fields "source" with
  | some (.str s) => basenameOf s
  | _ => ""

/-- Modelled from the spec (§4.1): `getNodeName` / `effectiveName` lives in
`vfs.ts`, outside the given sources.  "returns `node.name` if set and
non-empty/non-null, otherwise the base name of `node.source`". -/
def getNodeName (n : VfsNode) : String :=
  match n.fields "name" with
  | some (.str s) => if s = "" then sourceBase n else s
  | _ => sourceBase n

/-- The node with its `name` field removed (the `{ name, ...noName }` spread). -/
def dropNameField (n : VfsNode) : VfsNode :=
  { n with fields := fun k => if k = "name" then none else n.fields k }

/-- `simplifyName(node)`: drop the explicit `name` when the name derived from
the rest of the node already equals it (admin-apis lines 229–233). -/
def simplifyName (n : VfsNode) : VfsNode :=
  match n.fields "name" with
  | some (.str s) => if getNodeName (dropNameField n) = s then dropNameField n else n
  | _ => n

/-- `pickProps` result for one key: key absent from the sanitized object,
present with value `undefined`, or present with a proper value. -/
inductive PickResult where
  | absent
  | undef
  | val (v : PVal)
deriving DecidableEq, Repr

/-- A sanitized properties object. -/
abbrev Props := String → PickResult

/-- `pickProps(o, keys)` (admin-apis lines 220–227): keep only the whitelisted
keys; `null` and the empty string become `undefined` (a *present* key with an
undefined value).  A non-object payload gives the empty result. -/
def pickProps (o : Option Payload) (keys : List String) : Props := fun k =>
  match o with
  | none => .absent
  | some p =>
    if k ∈ keys then
      match p k with
      | none => .absent
      | some .null => .undef
      | some (.val (.str "")) => .undef
      | some (.val v) => .val v
    else .absent

/-- `Object.assign(n, props)`: a present key overwrites the node's field
(an `undefined` value clears it), an absent key leaves it untouched. -/
def assignProps (n : VfsNode) (p : Props) : VfsNode :=
  { n with fields := fun k =>
      match p k with
      | .absent => n.fields k
      | .undef => none
      | .val v => some v }

/-- Node used for concrete witnesses: explicit name `"a"`, source `"/x/a"`. -/
def nodeRedundantName : VfsNode :=
  { fields := fun k =>
      if k = "name" then some (.str "a")
      else if k = "source" then some (.str "/x/a")
      else none,
    children := none }

/-! ### Path helpers (the `path` module is external; modelled on Node's
POSIX-style behavior for the URI/name strings the operations use) -/

/-- Modelled on Node `path.dirname` for the URI strings fed to it: drop the
last nonempty segment. -/
def dirname (s : String) : String :=
  let parts := pathSegs s
  if s.data.head? = some '/' then
    match parts.dropLast with
    | [] => "/"
    | ps => ⟨'/' :: (ps.intersperse ['/']).flatten⟩
  else
    match parts.dropLast with
    | [] => "."
    | ps => ⟨(ps.intersperse ['/']).flatten⟩

/-- Position (from the start) of the last `.` in a character list, if any. -/
def lastDotIdx (cs : List Char) : Option Nat :=
  match cs.reverse.indexOf? '.' with
  | some r => some (cs.length - 1 - r)
  | none => none

/-- Modelled on Node `path.extname` for plain file names: the suffix starting
at the last dot, empty when there is no dot or the only dot is leading. -/
def extname (s : String) : String :=
  match lastDotIdx s.data with
  | some 0 => ""
  | some i => ⟨s.data.drop i⟩
  | none => ""

/-! ### Decimal rendering of the disambiguation counter

The template literal `` `${noExt} ${idx++}${ext}` `` renders `idx` in decimal.
`decRepr` is that decimal rendering, defined with explicit fuel (the same
digit-peeling loop as core's `Nat.toDigitsCore`) so that it evaluates by
kernel reduction. -/

def decReprCore : Nat → Nat → List Char → List Char
  | 0, _, acc => acc
  | fuel + 1, n, acc =>
    let d := Nat.digitChar (n % 10)
    if n < 10 then d :: acc else decReprCore fuel (n / 10) (d :: acc)

/-- Decimal string of a natural number. -/
def decRepr (n : Nat) : String := ⟨decReprCore (n + 1) n []⟩

/-! ### HTTP status codes (from `const`, external; standard values) -/

def HTTP_BAD_REQUEST : Nat := 400
def HTTP_NOT_FOUND : Nat := 404
def HTTP_SERVER_ERROR : Nat := 500
def HTTP_CONFLICT : Nat := 409
def HTTP_NOT_ACCEPTABLE : Nat := 406

/-- JS falsiness of an optional string argument (`undefined`, `null` or `''`). -/
def falsyS : Option String → Bool
  | none => true
  | some s => s = ""

/-- Modelled from the source's use of `isWindowsDrive` (from `misc`, external):
a two-character drive specification such as `C:`. -/
def isWindowsDrive : Option String → Bool
  | some s =>
    match s.data with
    | [c, ':'] => c.isAlpha
    | _ => false
  | none => false

/-- Modelled from the spec (§4.4): `nodeIsDirectory` lives in `vfs.ts`,
outside the given sources.  A node is directory-like when it has no real
`source` (a pure virtual folder) or its source is a real directory; `fsIsDir`
is the external filesystem oracle (`none`: the path does not exist). -/
def nodeIsDirectory (fsIsDir : String → Option Bool) (n : VfsNode) : Bool :=
  match n.fields "source" with
  | some (.str s) => if s = "" then true else fsIsDir s == some true
  | _ => true

/-! ### The tree-mutation operations (admin-apis) -/

/-- The mutation performed by a successful `move_vfs`: pull the moved node
out of the resolved old parent's children (deleting the field when that leaves
it empty), then push it onto the destination parent's children. -/
def moveApply (st : Store) (fromId parentId oldId : Nat) : Store :=
  let oldN := getN st oldId
  let pulled := (oldN.children.getD []).filter (fun x => x ≠ fromId)
  let st1 := setN st oldId
    { oldN with children := if pulled.isEmpty then none else some pulled }
  let pN := getN st1 parentId
  setN st1 parentId { pN with children := some (pN.children.getD [] ++ [fromId]) }

/-- `move_vfs({ from, parent })` (admin-apis lines 60–81).  Validation happens
before any mutation; on success the moved node is pulled out of the resolved
old parent's children (the field is deleted when that leaves it empty) and
pushed onto the destination parent's children.  The `HTTP_SERVER_ERROR` case
models the `TypeError` thrown by `oldParent!.children` when `dirname(from)`
does not resolve. -/
def move_vfs (res : Resolver) (rootId : Nat) (st : Store)
    (from? parent? : Option String) : Except Nat Unit × Store :=
  if falsyS from? || falsyS parent? then (.error HTTP_BAD_REQUEST, st) else
  match res st (from?.getD "") with
  | none => (.error HTTP_NOT_FOUND, st)
  | some fromId =>
    if fromId = rootId then (.error HTTP_BAD_REQUEST, st) else
    match res st (parent?.getD "") with
    | none => (.error HTTP_NOT_FOUND, st)
    | some parentId =>
      if ((getN st parentId).children.getD []).any
          (fun x => getNodeName (getN st fromId) == getNodeName (getN st x)) then
        (.error HTTP_CONFLICT, st)
      else
        match res st (dirname (from?.getD "")) with
        | none => (.error HTTP_SERVER_ERROR, st)
        | some oldId => (.ok (), moveApply st fromId parentId oldId)

/-- The masks sanitization step of `set_vfs`: `props.masks` is deleted when it
is truthy but not an object. -/
def sanitizeMasks (p : Props) : Props := fun k =>
  if k = "masks" then
    match p "masks" with
    | .val v => if v.truthy && !v.isObj then .absent else .val v
    | r => r
  else p k

/-- The rename-conflict test of `set_vfs`: a truthy `props.name` differing
from the node's current effective name is checked against the children of the
node resolved from `dirname(uri)`. -/
def setConflict (res : Resolver) (st : Store) (uri : String) (nid : Nat)
    (props : Props) : Bool :=
  (match props "name" with
   | .val v => v.truthy && (match v with
       | .str s => s ≠ getNodeName (getN st nid)
       | _ => true)
   | _ => false) &&
  (match res st (dirname uri) with
   | some pid =>
     ((getN st pid).children.getD []).any (fun x =>
       match props "name" with
       | .val (.str s) => getNodeName (getN st x) == s
       | _ => false)
   | none => false)

/-- `set_vfs({ uri, props })` (admin-apis lines 83–99).  Returns the id of the
updated node. -/
def set_vfs (res : Resolver) (st : Store) (uri : String)
    (payload : Option Payload) : Except Nat Nat × Store :=
  match res st uri with
  | none => (.error HTTP_NOT_FOUND, st)
  | some nid =>
    if setConflict res st uri nid (pickProps payload SET_WHITELIST) then
      (.error HTTP_CONFLICT, st)
    else
      (.ok nid, setN st nid (simplifyName (assignProps (getN st nid)
        (sanitizeMasks (pickProps payload SET_WHITELIST)))))

/-- Overwrite the `name` field of a node with a given string
(the `child.name = name` assignment of `add_vfs`). -/
def setNameField (n : VfsNode) (s : String) : VfsNode :=
  { n with fields := fun k => if k = "name" then some (.str s) else n.fields k }

/-- The candidate produced by the disambiguation template literal:
`` `${noExt} ${idx}${ext}` ``. -/
def candName (noExt ext : String) (idx : Nat) : String :=
  noExt ++ " " ++ decRepr idx ++ ext

/-- The `while (find(isSameFilenameAs(name))) name = ...` loop of `add_vfs`,
with explicit fuel (a fuel of `children.length + 2` is enough, see
`addNameLoop_finds`). -/
def addNameLoop (taken : String → Bool) (noExt ext : String) :
    Nat → Nat → String → String
  | 0, _, cur => cur
  | fuel + 1, idx, cur =>
    if taken cur then addNameLoop taken noExt ext fuel (idx + 1) (candName noExt ext idx)
    else cur

/-- The effective names of a node's children. -/
def childNames (st : Store) (i : Nat) : List String :=
  ((getN st i).children.getD []).map (fun c => getNodeName (getN st c))

/-- The Windows-drive normalization of `add_vfs`: a bare drive letter gets a
trailing separator. -/
def addSource1 (source? : Option String) : Option String :=
  if isWindowsDrive source? then some (source?.getD "" ++ "\\") else source?

/-- The fresh `{ source, name }` child object of `add_vfs`. -/
def addChild0 (source1 name? : Option String) : VfsNode :=
  { fields := fun k =>
      if k = "source" then (match source1 with | some s => some (.str s) | none => none)
      else if k = "name" then (match name? with | some s => some (.str s) | none => none)
      else none,
    children := none }

/-- `noExt`: the name with its extension (as computed by `extname`) cut off. -/
def addNoExt (name0 : String) : String :=
  if extname name0 = "" then name0
  else String.mk (name0.data.take (name0.data.length - (extname name0).data.length))

/-- The sibling-name-collision test of `add_vfs` (`isSameFilenameAs`, from the
external `misc`; modelled from the spec as effective-name equality). -/
def addTaken (st : Store) (pid : Nat) : String → Bool := fun s =>
  (childNames st pid).contains s

/-- The generated (possibly disambiguated) name of `add_vfs`: the `while`
loop run with fuel `children.length + 2` (shown sufficient in
`exists_free_cand`). -/
def addFinalName (st : Store) (pid : Nat) (child0 : VfsNode) : String :=
  addNameLoop (addTaken st pid) (addNoExt (getNodeName child0))
    (extname (getNodeName child0))
    ((childNames st pid).length + 2) 2 (getNodeName child0)

/-- The store mutation of a successful `add_vfs`: the finished child is
appended to the store and its id is unshifted onto the parent's children. -/
def addApply (st : Store) (pid : Nat) (child2 : VfsNode) : Store :=
  (setN st pid { getN st pid with
    children := some (st.length :: (getN st pid).children.getD []) }) ++ [child2]

/-- The success branch of `add_vfs`. -/
def addOk (st : Store) (pid : Nat) (child0 : VfsNode) : Except Nat String × Store :=
  (.ok (addFinalName st pid child0),
   addApply st pid (simplifyName (setNameField child0 (addFinalName st pid child0))))

/-- `add_vfs({ parent, source, name })` (admin-apis lines 101–130).  Returns
the (possibly disambiguated) generated name; the new node is appended to the
store and prepended to the parent's children.  The browsable `link` of the
response is composed from the external server base URL and is not modelled. -/
def add_vfs (res : Resolver) (fsIsDir : String → Option Bool) (rootId : Nat)
    (st : Store) (parent? source? name? : Option String) :
    Except Nat String × Store :=
  if falsyS source? && falsyS name? then (.error HTTP_BAD_REQUEST, st) else
  match (if falsyS parent? then some rootId else res st (parent?.getD "")) with
  | none => (.error HTTP_NOT_FOUND, st)
  | some pid =>
    if !nodeIsDirectory fsIsDir (getN st pid) then (.error HTTP_NOT_ACCEPTABLE, st)
    else if falsyS (addSource1 source?) then
      addOk st pid (addChild0 (addSource1 source?) name?)
    else match fsIsDir ((addSource1 source?).getD "") with
      | none => (.error HTTP_NOT_FOUND, st)
      | some _ => addOk st pid (addChild0 (addSource1 source?) name?)

/-- The successive candidate names tried by the disambiguation loop, starting
from the current name `cur` with the next counter value `idx`. -/
def seqFrom (cand : Nat → String) : Nat → String → Nat → String
  | _, cur, 0 => cur
  | idx, _, j + 1 => seqFrom cand (idx + 1) (cand idx) j

/-- One entry of the `del_vfs` batch: a string URI or a non-string value. -/
inductive UriEntry where
  | str (s : String)
  | nonStr
deriving DecidableEq, Repr

/-- JS `Array.prototype.indexOf`: position of the first occurrence, `-1` when
absent. -/
def jsIndexOf (l : List Nat) (x : Nat) : Int :=
  match l.indexOf? x with
  | some i => (i : Int)
  | none => -1

/-- JS `children.splice(idx, 1)` as used by `del_vfs`: for a nonnegative index
remove the element there; for `-1` (the not-found result of `indexOf`) remove
the last element, if any. -/
def spliceRemove1 (l : List Nat) (i : Int) : List Nat :=
  if i < 0 then l.dropLast else l.eraseIdx i.toNat

/-- Processing of a single URI by `del_vfs` (admin-apis lines 136–154):
returns the per-entry outcome code (`0` is the success sentinel) and the
store after the entry. -/
def delOne (res : Resolver) (st : Store) (u : UriEntry) : Nat × Store :=
  match u with
  | .nonStr => (HTTP_BAD_REQUEST, st)
  | .str uri =>
    if uri = "/" then (HTTP_NOT_ACCEPTABLE, st) else
    match res st uri with
    | none => (HTTP_NOT_FOUND, st)
    | some nid =>
      match res st (dirname uri) with
      | none => (HTTP_SERVER_ERROR, st)
      | some pid =>
        match (getN st pid).children with
        | none => (HTTP_SERVER_ERROR, st)
        | some l =>
          let idx := jsIndexOf l nid
          (0, setN st pid { getN st pid with children := some (spliceRemove1 l idx) })

/-- `del_vfs({ uris })` (admin-apis lines 132–157): every entry is processed,
each yielding its own code. -/
def del_vfs (res : Resolver) : Store → List UriEntry → List Nat × Store
  | st, [] => ([], st)
  | st, u :: rest =>
    let (c, st') := delOne res st u
    let (cs, st'') := del_vfs res st' rest
    (c :: cs, st'')

/-! ### Permission-mask classification (`get_vfs`, admin-apis lines 39–48) -/

/-- A permission snapshot: partial map from permission key to value. -/
abbrev PermSnap := String → Option PVal

/-- Modelled from the spec (§4.2): `permsFromParent` lives in `vfs.ts`,
outside the given sources.  The inherited-permission snapshot of a node whose
persisted fields are `own`, under the ancestor chain `ancestors` (nearest
first): a field unset on the node itself inherits the nearest ancestor's
explicit value. -/
def inheritedPerms (ancestors : List PermSnap) (own : PermSnap) : PermSnap :=
  fun k =>
    if (own k).isSome then none
    else ((ancestors.map (fun a => a k)).filter Option.isSome).head?.getD none

/-- The `byMasks` classification predicate of `get_vfs` (lines 40–43): a key
`k` is reported as a mask exactly when it is present on the materialized node
with a value differing from the original's, it is not a key of the inherited
snapshot, and it is a recognized permission key. -/
def byMasksHas (node original : PermSnap) (inherited : Option PermSnap)
    (k : String) : Bool :=
  (node k).isSome && node k ≠ original k &&
    !(match inherited with | some m => (m k).isSome | none => false) &&
    PERM_KEYS.contains k

/-! ### Directory-listing filter (`get_ls`, admin-apis lines 184–201) -/

/-- One entry produced by the external `dirStream`. -/
structure LsEntry where
  n : String
  isDir : Bool
deriving DecidableEq, Repr

/-- The entry filter of `get_ls`'s enumeration loop: a non-directory entry is
skipped when files are excluded or an active mask does not match it; any entry
whose stat fails is skipped.  `matching` is the external `makeMatcher fileMask`
and `statOk` the external per-entry `stat` outcome. -/
def get_ls_filter (files : Bool) (fileMask : Option String)
    (matching : String → Bool) (statOk : String → Bool)
    (entries : List LsEntry) : List LsEntry :=
  let maskActive : Bool := match fileMask with | some s => s ≠ "" | none => false
  entries.filter (fun e =>
    (if e.isDir then true else files && !(maskActive && !matching e.n)) && statOk e.n)

/-! ### Tree well-formedness -/

/-- All children ids point into the store. -/
def IdsOk (st : Store) : Prop :=
  ∀ i < st.length, ∀ c ∈ (getN st i).children.getD [], c < st.length

/-- Sibling effective names are pairwise distinct at every node. -/
def NamesOk (st : Store) : Prop :=
  ∀ i < st.length, (childNames st i).Nodup

instance (st : Store) : Decidable (IdsOk st) := by
  unfold IdsOk; infer_instance

instance (st : Store) : Decidable (NamesOk st) := by
  unfold NamesOk; infer_instance

/-! ### Concrete fixtures for witnesses and counterexamples -/

/-- A node with just an explicit name. -/
def namedNode (s : String) : VfsNode :=
  { fields := fun k => if k = "name" then some (.str s) else none, children := none }

/-- A root node with the given children ids. -/
def rootNode (ch : List Nat) : VfsNode :=
  { fields := fun _ => none, children := some ch }

/-- Store for the `del_vfs` examples: a root with two named children. -/
def stDel : Store := [rootNode [1, 2], namedNode "a", namedNode "b"]

/-- Resolver for `stDel`. -/
def resDel : Resolver := fun _ u =>
  if u = "/" then some 0
  else if u = "/a" then some 1
  else if u = "/b" then some 2
  else none

/-- Store for the C9 example: node 3 is resolvable through the resolver but is
not an element of the root's children. -/
def stGhost : Store := [rootNode [1, 2], namedNode "a", namedNode "b", namedNode "g"]

/-- Resolver for `stGhost`: `/g` resolves to the detached node 3. -/
def resGhost : Resolver := fun _ u =>
  if u = "/" then some 0
  else if u = "/g" then some 3
  else none

/-- Ancestor snapshots for the C3 example: the parent sets `can_read`. -/
def ancSnaps : List PermSnap :=
  [fun k => if k = "can_read" then some (.bool false) else none]

/-- Original (persisted) snapshot for the C3 example: sets `can_upload`. -/
def origSnap : PermSnap := fun k =>
  if k = "can_upload" then some (.bool false) else none

/-- Materialized snapshot for the C3 example: `can_read` equals its inherited
value, `can_upload` was set to differ from the original. -/
def nodeSnap : PermSnap := fun k =>
  if k = "can_read" then some (.bool false)
  else if k = "can_upload" then some (.bool true)
  else none

/-- A node with an explicit name and a children list. -/
def namedDirNode (s : String) (ch : List Nat) : VfsNode :=
  { fields := fun k => if k = "name" then some (.str s) else none, children := some ch }

/-- Store for the `move_vfs` examples: root holds `a` and `b`; `b` holds `c`. -/
def stMove : Store := [rootNode [1, 2], namedNode "a", namedDirNode "b" [3], namedNode "c"]

/-- Resolver for `stMove`. -/
def resMove : Resolver := fun _ u =>
  if u = "/" then some 0
  else if u = "/a" then some 1
  else if u = "/b" then some 2
  else none

/-- A node with explicit name and source. -/
def namedSrcNode (s src : String) : VfsNode :=
  { fields := fun k =>
      if k = "name" then some (.str s)
      else if k = "source" then some (.str src)
      else none,
    children := none }

/-- Store for the C10 counterexample: child 1 has name `b` and source
`/x/a`. -/
def stSet : Store := [rootNode [1], namedSrcNode "b" "/x/a"]

/-- Resolver for `stSet`. -/
def resSet : Resolver := fun _ u =>
  if u = "/" then some 0 else if u = "/b" then some 1 else none

/-- Payload that only changes `source`, to `/x/b` (whose base name equals the
stored explicit name `b`). -/
def payloadSrc : Payload := fun k =>
  if k = "source" then some (.val (.str "/x/b")) else none

/-- Store for the C1 counterexample: the two children of the root have
distinct effective names `c` (explicit, source `/x/b`) and `b`. -/
def stSetC1 : Store := [rootNode [1, 2], namedSrcNode "c" "/x/b", namedNode "b"]

/-- Resolver for `stSetC1`. -/
def resSetC1 : Resolver := fun _ u =>
  if u = "/" then some 0 else if u = "/c" then some 1 else none

/-- Payload that clears the explicit name (`name: null`). -/
def payloadNameNull : Payload := fun k =>
  if k = "name" then some .null else none

/-- The trivial resolver (no URI resolves). -/
def noResolver : Resolver := fun _ _ => none

/-- The trivial filesystem oracle (no path exists). -/
def noFsOracle : String → Option Bool := fun _ => none

/-- A store holding only a bare root (no children yet). -/
def stAdd0 : Store := [{ fields := fun _ => none, children := none }]

/-- The store after adding `report.txt` to `stAdd0`. -/
def stAdd1 : Store :=
  (add_vfs noResolver noFsOracle 0 stAdd0 none none (some "report.txt")).2

/-- The store after adding `report.txt` twice. -/
def stAdd2 : Store :=
  (add_vfs noResolver noFsOracle 0 stAdd1 none none (some "report.txt")).2

end HfsVfs

namespace HfsVfs

/-! ### Store access lemmas -/

theorem getN_setN_self {st : Store} {j : Nat} (h : j < st.length) (n : VfsNode) :
    getN (setN st j n) j = n := by
  simp [getN, setN, List.getD_eq_getElem?_getD, List.getElem?_set_self', h]

theorem getN_setN_ne {st : Store} {i j : Nat} (h : i ≠ j) (n : VfsNode) :
    getN (setN st j n) i = getN st i := by
  simp [getN, setN, List.getD_eq_getElem?_getD, List.getElem?_set_ne (Ne.symm h)]

theorem setN_oob {st : Store} {j : Nat} (h : st.length ≤ j) (n : VfsNode) :
    setN st j n = st :=
  List.set_eq_of_length_le h

theorem length_setN (st : Store) (j : Nat) (n : VfsNode) :
    (setN st j n).length = st.length := by
  simp [setN]

theorem getN_append_lt {st : Store} {i : Nat} (h : i < st.length) (c : VfsNode) :
    getN (st ++ [c]) i = getN st i := by
  simp [getN, List.getD_eq_getElem?_getD, List.getElem?_append_left h]

theorem getN_append_self (st : Store) (c : VfsNode) :
    getN (st ++ [c]) st.length = c := by
  simp [getN, List.getD_eq_getElem?_getD]

theorem getN_oob {st : Store} {i : Nat} (h : st.length ≤ i) : getN st i = default := by
  simp [getN, List.getD_eq_getElem?_getD, List.getElem?_eq_none h]

/-- A children-only update never changes any node's scalar fields. -/
theorem fields_setChildren (st : Store) (j : Nat) (ch : Option (List Nat)) (c : Nat) :
    (getN (setN st j { getN st j with children := ch }) c).fields = (getN st c).fields := by
  by_cases hj : j < st.length
  · by_cases hc : c = j
    · subst hc; rw [getN_setN_self hj]
    · rw [getN_setN_ne hc]
  · rw [setN_oob (le_of_not_lt hj)]

theorem getNodeName_eq_of_fields {n m : VfsNode} (h : n.fields = m.fields) :
    getNodeName n = getNodeName m := by
  unfold getNodeName sourceBase
  rw [h]

theorem childNames_congr {st st' : Store} (i : Nat)
    (hch : (getN st' i).children = (getN st i).children)
    (hf : ∀ c, (getN st' c).fields = (getN st c).fields) :
    childNames st' i = childNames st i := by
  unfold childNames
  rw [hch]
  exact List.map_congr_left (fun c _ => getNodeName_eq_of_fields (hf c))

end HfsVfs

namespace HfsVfs

/-! ### Basic facts about `simplifyName` -/

theorem dropNameField_name (n : VfsNode) : (dropNameField n).fields "name" = none := by
  simp [dropNameField]

theorem dropNameField_other (n : VfsNode) (k : String) (h : k ≠ "name") :
    (dropNameField n).fields k = n.fields k := by
  simp [dropNameField, h]

theorem dropNameField_children (n : VfsNode) :
    (dropNameField n).children = n.children := rfl

theorem sourceBase_dropNameField (n : VfsNode) :
    sourceBase (dropNameField n) = sourceBase n := by
  unfold sourceBase
  rw [dropNameField_other n "source" (by decide)]

theorem getNodeName_dropNameField (n : VfsNode) :
    getNodeName (dropNameField n) = sourceBase n := by
  unfold getNodeName
  rw [dropNameField_name, sourceBase_dropNameField]

/-- `simplifyName` never changes the effective name. -/
theorem getNodeName_simplifyName (n : VfsNode) :
    getNodeName (simplifyName n) = getNodeName n := by
  cases hn : n.fields "name" with
  | none => simp [simplifyName, hn]
  | some v =>
    cases v with
    | str s =>
      simp only [simplifyName, hn]
      by_cases hc : getNodeName (dropNameField n) = s
      · rw [if_pos hc, getNodeName_dropNameField]
        rw [getNodeName_dropNameField] at hc
        unfold getNodeName
        rw [hn]
        by_cases hs : s = ""
        · simp [hs]
        · simp [hs, hc]
      · rw [if_neg hc]
    | bool b => simp [simplifyName, hn]
    | num v => simp [simplifyName, hn]
    | obj id => simp [simplifyName, hn]

/-- `simplifyName` never changes the children. -/
theorem simplifyName_children (n : VfsNode) :
    (simplifyName n).children = n.children := by
  cases hn : n.fields "name" with
  | none => simp [simplifyName, hn]
  | some v =>
    cases v with
    | str s =>
      simp only [simplifyName, hn]
      by_cases hc : getNodeName (dropNameField n) = s
      · rw [if_pos hc, dropNameField_children]
      · rw [if_neg hc]
    | bool b => simp [simplifyName, hn]
    | num v => simp [simplifyName, hn]
    | obj id => simp [simplifyName, hn]

theorem simplifyName_of_name_none {n : VfsNode} (h : n.fields "name" = none) :
    simplifyName n = n := by
  simp [simplifyName, h]

theorem simplifyName_of_drop {n : VfsNode} {s : String}
    (h : n.fields "name" = some (.str s)) (hc : sourceBase n = s) :
    simplifyName n = dropNameField n := by
  simp only [simplifyName, h]
  rw [if_pos (by rw [getNodeName_dropNameField]; exact hc)]

theorem simplifyName_of_keep {n : VfsNode} {s : String}
    (h : n.fields "name" = some (.str s)) (hc : sourceBase n ≠ s) :
    simplifyName n = n := by
  simp only [simplifyName, h]
  rw [if_neg (by rw [getNodeName_dropNameField]; exact hc)]

theorem simplifyName_of_name_not_str {n : VfsNode} {v : PVal}
    (h : n.fields "name" = some v) (hv : ∀ s, v ≠ .str s) :
    simplifyName n = n := by
  cases v with
  | str s => exact absurd rfl (hv s)
  | bool b => simp [simplifyName, h]
  | num w => simp [simplifyName, h]
  | obj id => simp [simplifyName, h]

/-- **C7.** `simplifyName` is idempotent, and it drops the explicit `name`
field exactly when the effective name derived from the node without its name
(the base name of `source`) equals the stored explicit name. -/
theorem simplifyName_idempotent_and_drop_iff :
    (∀ n : VfsNode, simplifyName (simplifyName n) = simplifyName n) ∧
    (∀ (n : VfsNode) (s : String), n.fields "name" = some (.str s) →
      ((simplifyName n).fields "name" = none ↔ sourceBase n = s)) := by
  constructor
  · intro n
    cases hn : n.fields "name" with
    | none =>
      have h := simplifyName_of_name_none hn
      rw [h, h]
    | some v =>
      cases v with
      | str s =>
        by_cases hc : sourceBase n = s
        · have h := simplifyName_of_drop hn hc
          rw [h, simplifyName_of_name_none (dropNameField_name n)]
        · have h := simplifyName_of_keep hn hc
          rw [h, h]
      | bool b =>
        have h := simplifyName_of_name_not_str hn (fun s => by simp)
        rw [h, h]
      | num w =>
        have h := simplifyName_of_name_not_str hn (fun s => by simp)
        rw [h, h]
      | obj id =>
        have h := simplifyName_of_name_not_str hn (fun s => by simp)
        rw [h, h]
  · intro n s hn
    constructor
    · intro hnone
      by_contra hc
      rw [simplifyName_of_keep hn hc, hn] at hnone
      exact Option.noConfusion hnone
    · intro hc
      rw [simplifyName_of_drop hn hc]
      exact dropNameField_name n

/-- Witness for C7 at a concrete node: the redundant explicit name `"a"`
(equal to the base name of source `"/x/a"`) is dropped, and the operation is
idempotent there. -/
theorem simplifyName_idempotent_and_drop_iff_witness :
    (simplifyName nodeRedundantName).fields "name" = none ∧
    simplifyName (simplifyName nodeRedundantName) = simplifyName nodeRedundantName :=
  ⟨(simplifyName_idempotent_and_drop_iff.2 nodeRedundantName "a" rfl).mpr (by decide),
   simplifyName_idempotent_and_drop_iff.1 nodeRedundantName⟩

end HfsVfs

namespace HfsVfs

/-! ### C8: the `get_ls` file-mask filter -/

/-- **C8.** In `get_ls`, the optional `fileMask` filter applies only to
non-directory entries: the directory entries of the output are exactly the
stat-able directory entries of the input, for every combination of `files`,
`fileMask` and matcher (so no mask ever excludes a directory); and with
`files = false` every file entry is excluded regardless of the mask. -/
theorem get_ls_mask_only_filters_files :
    (∀ (files : Bool) (fileMask : Option String) (matching statOk : String → Bool)
        (entries : List LsEntry),
        (get_ls_filter files fileMask matching statOk entries).filter (fun e => e.isDir)
          = entries.filter (fun e => e.isDir && statOk e.n)) ∧
    (∀ (fileMask : Option String) (matching statOk : String → Bool)
        (entries : List LsEntry),
        (get_ls_filter false fileMask matching statOk entries).all (fun e => e.isDir) = true) := by
  constructor
  · intro files fileMask matching statOk entries
    unfold get_ls_filter
    rw [List.filter_filter]
    apply List.filter_congr
    intro e _
    cases hd : e.isDir <;> simp [hd]
  · intro fileMask matching statOk entries
    unfold get_ls_filter
    simp only [List.all_eq_true]
    intro e he
    rw [List.mem_filter] at he
    rcases he with ⟨-, hp⟩
    cases hd : e.isDir
    · rw [hd] at hp; simp at hp
    · rfl

/-! ### C3: permission-mask classification in `get_vfs` -/

/-- **C3.** `get_vfs` reports a permission field as a mask exactly when it is
present on the node with a value differing from the original's, it is not
among the fields accounted for by inheritance, and it is a recognized
permission key; a field equal to its inherited value is never reported, and a
field set to differ from both the original's value and anything inheritance
accounts for is reported. -/
theorem byMasks_classification :
    (∀ (node original : PermSnap) (inh : Option PermSnap) (k : String),
        byMasksHas node original inh k = true ↔
          ((node k).isSome = true ∧ node k ≠ original k ∧
            (match inh with | some m => (m k).isSome = false | none => True) ∧
            k ∈ PERM_KEYS)) ∧
    (∀ (ancestors : List PermSnap) (node original : PermSnap) (k : String) (v : PVal),
        inheritedPerms ancestors original k = some v →
        node k = some v →
        byMasksHas node original (some (inheritedPerms ancestors original)) k = false) ∧
    (∀ (ancestors : List PermSnap) (node original : PermSnap) (k : String) (v w : PVal),
        k ∈ PERM_KEYS →
        original k = some w →
        node k = some v →
        v ≠ w →
        byMasksHas node original (some (inheritedPerms ancestors original)) k = true) := by
  refine ⟨?_, ?_, ?_⟩
  · intro node original inh k
    unfold byMasksHas
    cases inh with
    | none =>
      simp [List.contains, and_assoc]
    | some m =>
      simp [List.contains, and_assoc]
  · intro ancestors node original k v hinh hnode
    simp [byMasksHas, hinh]
  · intro ancestors node original k v w hk horig hnode hne
    have hinh : inheritedPerms ancestors original k = none := by
      unfold inheritedPerms
      rw [horig]
      simp
    simp [byMasksHas, hinh, hnode, horig, List.contains, hk]
    exact hne

/-- Witness for C3 on concrete snapshots: `can_read` equals its inherited
value and is not reported; `can_upload` differs from the original (which sets
it, so inheritance accounts nothing) and is reported. -/
theorem byMasks_classification_witness :
    byMasksHas nodeSnap origSnap (some (inheritedPerms ancSnaps origSnap)) "can_read" = false ∧
    byMasksHas nodeSnap origSnap (some (inheritedPerms ancSnaps origSnap)) "can_upload" = true :=
  ⟨byMasks_classification.2.1 ancSnaps nodeSnap origSnap "can_read" (.bool false)
      (by decide) (by decide),
   byMasks_classification.2.2 ancSnaps nodeSnap origSnap "can_upload"
      (.bool true) (.bool false) (by decide) (by decide) (by decide) (by decide)⟩

end HfsVfs

namespace HfsVfs

/-! ### C6: per-URI outcome codes of `del_vfs` -/

/-- **C6.** `del_vfs` gives every entry of the batch its own outcome code and
never aborts: the code list has one code per input, a non-string entry yields
bad-request, the root URI `/` yields not-acceptable with the tree unaltered,
an unresolvable URI yields not-found, a missing parent or a parent without a
children field yields internal-error, a full resolution yields the sentinel 0,
and the processing of a batch head never prevents the processing of the
tail. -/
theorem del_vfs_per_uri_codes :
    (∀ (res : Resolver) (st : Store) (uris : List UriEntry),
        (del_vfs res st uris).1.length = uris.length) ∧
    (∀ (res : Resolver) (st : Store),
        delOne res st .nonStr = (HTTP_BAD_REQUEST, st)) ∧
    (∀ (res : Resolver) (st : Store),
        delOne res st (.str "/") = (HTTP_NOT_ACCEPTABLE, st)) ∧
    (∀ (res : Resolver) (st : Store) (uri : String),
        uri ≠ "/" → res st uri = none →
        delOne res st (.str uri) = (HTTP_NOT_FOUND, st)) ∧
    (∀ (res : Resolver) (st : Store) (uri : String) (nid : Nat),
        uri ≠ "/" → res st uri = some nid → res st (dirname uri) = none →
        delOne res st (.str uri) = (HTTP_SERVER_ERROR, st)) ∧
    (∀ (res : Resolver) (st : Store) (uri : String) (nid pid : Nat),
        uri ≠ "/" → res st uri = some nid → res st (dirname uri) = some pid →
        (getN st pid).children = none →
        delOne res st (.str uri) = (HTTP_SERVER_ERROR, st)) ∧
    (∀ (res : Resolver) (st : Store) (uri : String) (nid pid : Nat) (l : List Nat),
        uri ≠ "/" → res st uri = some nid → res st (dirname uri) = some pid →
        (getN st pid).children = some l →
        (delOne res st (.str uri)).1 = 0) ∧
    (∀ (res : Resolver) (st : Store) (u : UriEntry) (rest : List UriEntry),
        del_vfs res st (u :: rest) =
          ((delOne res st u).1 :: (del_vfs res (delOne res st u).2 rest).1,
            (del_vfs res (delOne res st u).2 rest).2)) := by
  refine ⟨?_, ?_, ?_, ?_, ?_, ?_, ?_, ?_⟩
  · intro res st uris
    induction uris generalizing st with
    | nil => rfl
    | cons u rest ih =>
      simp only [del_vfs]
      exact congrArg Nat.succ (ih _)
  · intro res st
    rfl
  · intro res st
    rfl
  · intro res st uri hne hres
    simp [delOne, hne, hres]
  · intro res st uri nid hne hres hpar
    simp [delOne, hne, hres, hpar]
  · intro res st uri nid pid hne hres hpar hch
    simp [delOne, hne, hres, hpar, hch]
  · intro res st uri nid pid l hne hres hpar hch
    simp [delOne, hne, hres, hpar, hch]
  · intro res st u rest
    simp only [del_vfs]

/-- Witness for C6 on the concrete `stDel` fixture: the root URI is rejected
with the store unchanged, a bogus URI is not found, and a batch containing
them still processes its valid tail entry. -/
theorem del_vfs_per_uri_codes_witness :
    delOne resDel stDel (.str "/") = (HTTP_NOT_ACCEPTABLE, stDel) ∧
    delOne resDel stDel (.str "/zz") = (HTTP_NOT_FOUND, stDel) ∧
    (del_vfs resDel stDel [.str "/", .str "/zz", .str "/a"]).1.length = 3 :=
  ⟨del_vfs_per_uri_codes.2.2.1 resDel stDel,
   del_vfs_per_uri_codes.2.2.2.1 resDel stDel "/zz" (by decide) (by rfl),
   del_vfs_per_uri_codes.1 resDel stDel [.str "/", .str "/zz", .str "/a"]⟩

/-! ### C9: the `indexOf`/`splice(-1)` behavior of `del_vfs` -/

/-- **C9.** When a `del_vfs` URI resolves to a node and its parent resolves
with a non-empty children sequence that does *not* contain the node, the entry
still yields the success sentinel 0 and the parent's *last* child is removed
(the `-1` returned by `indexOf` makes `splice(-1, 1)` drop the last
element). -/
theorem del_vfs_not_child_removes_last (res : Resolver) (st : Store) (uri : String)
    (nid pid : Nat) (l : List Nat)
    (hne : uri ≠ "/")
    (hres : res st uri = some nid)
    (hpar : res st (dirname uri) = some pid)
    (hch : (getN st pid).children = some l)
    (hnil : l ≠ [])
    (hmem : nid ∉ l) :
    (delOne res st (.str uri)).1 = 0 ∧
    (getN (delOne res st (.str uri)).2 pid).children = some l.dropLast ∧
    (getN (delOne res st (.str uri)).2 pid).children ≠ some l := by
  have hidx : jsIndexOf l nid = -1 := by
    unfold jsIndexOf
    rw [List.indexOf?_eq_none_iff.mpr (fun y hy => by
      simp only [beq_iff_eq]
      rintro rfl
      exact hmem hy)]
  have hlt : pid < st.length := by
    by_contra hge
    rw [getN_oob (le_of_not_lt hge)] at hch
    exact Option.noConfusion hch
  have hdel : delOne res st (.str uri)
      = (0, setN st pid { getN st pid with children := some (spliceRemove1 l (jsIndexOf l nid)) }) := by
    simp [delOne, hne, hres, hpar, hch]
  refine ⟨by rw [hdel], ?_, ?_⟩
  · rw [hdel]
    simp only
    rw [getN_setN_self hlt]
    simp [spliceRemove1, hidx]
  · rw [hdel]
    simp only
    rw [getN_setN_self hlt]
    simp only [spliceRemove1, hidx]
    norm_num
    intro hcontr
    have := congrArg List.length hcontr
    rw [List.length_dropLast] at this
    have hpos : 0 < l.length := List.length_pos.mpr hnil
    omega

/-- Witness for C9: in `stGhost`, `/g` resolves to node 3, which is not among
the root's children `[1, 2]`; the deletion reports success and drops the last
child 2. -/
theorem del_vfs_not_child_removes_last_witness :
    (delOne resGhost stGhost (.str "/g")).1 = 0 ∧
    (getN (delOne resGhost stGhost (.str "/g")).2 0).children = some [1] ∧
    (getN (delOne resGhost stGhost (.str "/g")).2 0).children ≠ some [1, 2] := by
  have h := del_vfs_not_child_removes_last resGhost stGhost "/g" 3 0 [1, 2]
    (by decide) (by rfl) (by rfl) (by rfl) (by decide) (by decide)
  exact h

end HfsVfs

namespace HfsVfs

/-! ### Success-shape elimination for `move_vfs` -/

/-- A successful `move_vfs` pins down all the intermediate resolutions and the
resulting store. -/
theorem move_vfs_ok_elim {res : Resolver} {root : Nat} {st : Store}
    {from? parent? : Option String} {st₂ : Store}
    (h : move_vfs res root st from? parent? = (.ok (), st₂)) :
    ∃ fromId parentId oldId,
      falsyS from? = false ∧ falsyS parent? = false ∧
      res st (from?.getD "") = some fromId ∧
      fromId ≠ root ∧
      res st (parent?.getD "") = some parentId ∧
      (((getN st parentId).children.getD []).any
        (fun x => getNodeName (getN st fromId) == getNodeName (getN st x))) = false ∧
      res st (dirname (from?.getD "")) = some oldId ∧
      st₂ = moveApply st fromId parentId oldId := by
  unfold move_vfs at h
  split at h
  · simp at h
  · rename_i hfalsy
    rw [Bool.not_eq_true, Bool.or_eq_false_iff] at hfalsy
    split at h
    · simp at h
    · rename_i fromId hfrom
      split at h
      · simp at h
      · rename_i hroot
        split at h
        · simp at h
        · rename_i parentId hpar
          split at h
          · simp at h
          · rename_i hconf
            split at h
            · simp at h
            · rename_i oldId hold
              simp only [Prod.mk.injEq] at h
              exact ⟨fromId, parentId, oldId, hfalsy.1, hfalsy.2, hfrom, hroot, hpar,
                Bool.eq_false_iff.mpr hconf, hold, h.2.symm⟩

end HfsVfs

namespace HfsVfs

/-! ### C5: failing `move_vfs` calls leave the tree unchanged -/

/-- **C5.** Every failing `move_vfs` call leaves the store untouched, and the
failures are classified as the source does: bad-request when `from` or
`parent` is missing/empty or `from` resolves to the root, not-found when
either endpoint does not resolve, conflict when the destination parent
already has a child with the moved node's effective name. -/
theorem move_vfs_failures_atomic :
    (∀ (res : Resolver) (root : Nat) (st : Store) (fr par : Option String)
        (e : Nat) (st' : Store),
        move_vfs res root st fr par = (.error e, st') → st' = st) ∧
    (∀ (res : Resolver) (root : Nat) (st : Store) (fr par : Option String),
        (falsyS fr || falsyS par) = true →
        move_vfs res root st fr par = (.error HTTP_BAD_REQUEST, st)) ∧
    (∀ (res : Resolver) (root : Nat) (st : Store) (fr par : Option String),
        falsyS fr = false → falsyS par = false →
        res st (fr.getD "") = none →
        move_vfs res root st fr par = (.error HTTP_NOT_FOUND, st)) ∧
    (∀ (res : Resolver) (root : Nat) (st : Store) (fr par : Option String),
        falsyS fr = false → falsyS par = false →
        res st (fr.getD "") = some root →
        move_vfs res root st fr par = (.error HTTP_BAD_REQUEST, st)) ∧
    (∀ (res : Resolver) (root : Nat) (st : Store) (fr par : Option String)
        (fromId : Nat),
        falsyS fr = false → falsyS par = false →
        res st (fr.getD "") = some fromId → fromId ≠ root →
        res st (par.getD "") = none →
        move_vfs res root st fr par = (.error HTTP_NOT_FOUND, st)) ∧
    (∀ (res : Resolver) (root : Nat) (st : Store) (fr par : Option String)
        (fromId parentId : Nat),
        falsyS fr = false → falsyS par = false →
        res st (fr.getD "") = some fromId → fromId ≠ root →
        res st (par.getD "") = some parentId →
        (((getN st parentId).children.getD []).any
          (fun x => getNodeName (getN st fromId) == getNodeName (getN st x))) = true →
        move_vfs res root st fr par = (.error HTTP_CONFLICT, st)) := by
  refine ⟨?_, ?_, ?_, ?_, ?_, ?_⟩
  · intro res root st fr par e st' h
    unfold move_vfs at h
    split at h
    · simp only [Prod.mk.injEq] at h; exact h.2.symm
    · split at h
      · simp only [Prod.mk.injEq] at h; exact h.2.symm
      · split at h
        · simp only [Prod.mk.injEq] at h; exact h.2.symm
        · split at h
          · simp only [Prod.mk.injEq] at h; exact h.2.symm
          · split at h
            · simp only [Prod.mk.injEq] at h; exact h.2.symm
            · split at h
              · simp only [Prod.mk.injEq] at h; exact h.2.symm
              · simp at h
  · intro res root st fr par hf
    simp [move_vfs, hf]
  · intro res root st fr par hf hp hres
    simp [move_vfs, hf, hp, hres]
  · intro res root st fr par hf hp hres
    simp [move_vfs, hf, hp, hres]
  · intro res root st fr par fromId hf hp hres hne hpar
    simp [move_vfs, hf, hp, hres, hne, hpar]
  · intro res root st fr par fromId parentId hf hp hres hne hpar hconf
    simp [move_vfs, hf, hp, hres, hne, hpar, hconf]

/-- Witness for C5: a `move_vfs` with a missing `from` is a bad request on the
concrete `stMove` fixture, and moving `/a` into the root (which already has a
child named `a`) is a conflict; both leave the store equal to `stMove`. -/
theorem move_vfs_failures_atomic_witness :
    move_vfs resMove 0 stMove none (some "/b") = (.error HTTP_BAD_REQUEST, stMove) ∧
    move_vfs resMove 0 stMove (some "/a") (some "/") = (.error HTTP_CONFLICT, stMove) :=
  ⟨move_vfs_failures_atomic.2.1 resMove 0 stMove none (some "/b") (by decide),
   move_vfs_failures_atomic.2.2.2.2.2 resMove 0 stMove (some "/a") (some "/") 1 0
     (by decide) (by decide) (by rfl) (by decide) (by rfl) (by decide)⟩

/-! ### C2: what a successful move does to the two parents -/

/-- **C2 counterexample.** On the concrete `stMove` fixture, moving `/a` into
`/b` succeeds and leaves `b`'s children as `[3, 1]`: the moved node is
*appended* (`push`), so the claim that it is prepended — which would give
`[1, 3]` — is false. -/
theorem move_vfs_append_counterexample :
    (move_vfs resMove 0 stMove (some "/a") (some "/b")).1 = .ok () ∧
    (getN (move_vfs resMove 0 stMove (some "/a") (some "/b")).2 2).children = some [3, 1] ∧
    some [3, 1] ≠ some ([1, 3] : List Nat) :=
  ⟨by rfl, by rfl, by decide⟩

/-- What `moveApply` leaves at the old parent (when it is distinct from the
destination parent): the pulled children list, or no children field at all
when the pull empties it. -/
theorem moveApply_children_old (st : Store) (fromId parentId oldId : Nat)
    (hne : oldId ≠ parentId) (hlt : oldId < st.length) :
    (getN (moveApply st fromId parentId oldId) oldId).children =
      (if (((getN st oldId).children.getD []).filter (fun x => x ≠ fromId)).isEmpty
       then none
       else some (((getN st oldId).children.getD []).filter (fun x => x ≠ fromId))) := by
  simp only [moveApply]
  rw [getN_setN_ne hne]
  rw [getN_setN_self hlt]

/-- What `moveApply` leaves at the destination parent (when distinct from the
old parent): its previous children with the moved id appended. -/
theorem moveApply_children_parent (st : Store) (fromId parentId oldId : Nat)
    (hne : oldId ≠ parentId) (hplt : parentId < st.length) :
    (getN (moveApply st fromId parentId oldId) parentId).children =
      some ((getN st parentId).children.getD [] ++ [fromId]) := by
  simp only [moveApply]
  have hplt' : parentId < (setN st oldId
      { getN st oldId with
        children := if (((getN st oldId).children.getD []).filter
            (fun x => x ≠ fromId)).isEmpty then none
          else some (((getN st oldId).children.getD []).filter (fun x => x ≠ fromId)) }).length := by
    rw [length_setN]
    exact hplt
  rw [getN_setN_self hplt']
  rw [getN_setN_ne (Ne.symm hne)]

/-- **C2 (amended).** A successful `move_vfs` removes the moved node from the
resolved old parent's children, deletes that children field entirely when the
removal leaves it empty, and *appends* the moved node at the end of the
destination parent's children. -/
theorem move_vfs_detach_and_append (res : Resolver) (root : Nat) (st : Store)
    (fr par : Option String) (st₂ : Store) (fromId parentId oldId : Nat)
    (h : move_vfs res root st fr par = (.ok (), st₂))
    (hfrom : res st (fr.getD "") = some fromId)
    (hparent : res st (par.getD "") = some parentId)
    (hold : res st (dirname (fr.getD "")) = some oldId)
    (hne : oldId ≠ parentId)
    (holdlt : oldId < st.length) (hparlt : parentId < st.length) :
    ((getN st₂ oldId).children.getD [])
        = ((getN st oldId).children.getD []).filter (fun x => x ≠ fromId) ∧
    (((getN st oldId).children.getD []).filter (fun x => x ≠ fromId) = [] →
        (getN st₂ oldId).children = none) ∧
    fromId ∉ ((getN st₂ oldId).children.getD []) ∧
    (getN st₂ parentId).children
        = some ((getN st parentId).children.getD [] ++ [fromId]) := by
  obtain ⟨fromId', parentId', oldId', -, -, hfrom', -, hparent', -, hold', hst⟩ :=
    move_vfs_ok_elim h
  rw [hfrom] at hfrom'
  rw [hparent] at hparent'
  rw [hold] at hold'
  obtain rfl : fromId = fromId' := (Option.some.injEq _ _).mp hfrom'
  obtain rfl : parentId = parentId' := (Option.some.injEq _ _).mp hparent'
  obtain rfl : oldId = oldId' := (Option.some.injEq _ _).mp hold'
  subst hst
  have hchOld := moveApply_children_old st fromId parentId oldId hne holdlt
  have hchPar := moveApply_children_parent st fromId parentId oldId hne hparlt
  refine ⟨?_, ?_, ?_, hchPar⟩
  · rw [hchOld]
    split
    · rename_i hemp
      rw [List.isEmpty_iff] at hemp
      rw [hemp]
      rfl
    · rfl
  · intro hnil
    rw [hchOld, if_pos (List.isEmpty_iff.mpr hnil)]
  · rw [hchOld]
    split
    · simp
    · simp only [Option.getD_some]
      intro hmem
      have := (List.mem_filter.mp hmem).2
      simp at this

/-- Witness for the amended C2 on `stMove`: node 1 is pulled from the root's
children and appended after `b`'s existing child. -/
theorem move_vfs_detach_and_append_witness :
    ((getN (move_vfs resMove 0 stMove (some "/a") (some "/b")).2 0).children.getD [])
        = [2] ∧
    (1 : Nat) ∉ ((getN (move_vfs resMove 0 stMove (some "/a") (some "/b")).2 0).children.getD []) ∧
    (getN (move_vfs resMove 0 stMove (some "/a") (some "/b")).2 2).children = some [3, 1] := by
  have h := move_vfs_detach_and_append resMove 0 stMove (some "/a") (some "/b")
    (move_vfs resMove 0 stMove (some "/a") (some "/b")).2 1 2 0
    (by rfl) (by rfl) (by rfl) (by rfl) (by decide) (by decide) (by decide)
  exact ⟨h.1, h.2.2.1, h.2.2.2⟩

end HfsVfs

namespace HfsVfs

/-! ### Helper facts about `simplifyName`, `sanitizeMasks`, `pickProps` -/

theorem simplifyName_eq_or (n : VfsNode) :
    simplifyName n = n ∨ simplifyName n = dropNameField n := by
  cases hn : n.fields "name" with
  | none => exact Or.inl (simplifyName_of_name_none hn)
  | some v =>
    cases v with
    | str s =>
      by_cases hc : sourceBase n = s
      · exact Or.inr (simplifyName_of_drop hn hc)
      · exact Or.inl (simplifyName_of_keep hn hc)
    | bool b => exact Or.inl (simplifyName_of_name_not_str hn (fun s => by simp))
    | num w => exact Or.inl (simplifyName_of_name_not_str hn (fun s => by simp))
    | obj id => exact Or.inl (simplifyName_of_name_not_str hn (fun s => by simp))

theorem fields_simplifyName_ne (n : VfsNode) (k : String) (h : k ≠ "name") :
    (simplifyName n).fields k = n.fields k := by
  rcases simplifyName_eq_or n with he | he
  · rw [he]
  · rw [he, dropNameField_other n k h]

theorem fields_simplifyName_none (n : VfsNode) (k : String) (h : n.fields k = none) :
    (simplifyName n).fields k = none := by
  rcases simplifyName_eq_or n with he | he
  · rw [he, h]
  · rw [he]
    unfold dropNameField
    by_cases hk : k = "name" <;> simp [hk, h]

theorem sanitizeMasks_ne (p : Props) (k : String) (h : k ≠ "masks") :
    sanitizeMasks p k = p k := by
  simp [sanitizeMasks, h]

theorem fields_assignProps (n : VfsNode) (p : Props) (k : String) :
    (assignProps n p).fields k =
      (match p k with
       | .absent => n.fields k
       | .undef => none
       | .val v => some v) := rfl

theorem pickProps_of_null {p : Payload} {k : String} {keys : List String}
    (hk : k ∈ keys) (hp : p k = some .null) :
    pickProps (some p) keys k = .undef := by
  simp [pickProps, hk, hp]

theorem pickProps_of_empty {p : Payload} {k : String} {keys : List String}
    (hk : k ∈ keys) (hp : p k = some (.val (.str ""))) :
    pickProps (some p) keys k = .undef := by
  simp [pickProps, hk, hp]

theorem pickProps_of_absent {p : Payload} {k : String} {keys : List String}
    (hp : p k = none) :
    pickProps (some p) keys k = .absent := by
  by_cases hk : k ∈ keys <;> simp [pickProps, hk, hp]

/-- A successful `set_vfs` pins down the resolution and the resulting store. -/
theorem set_vfs_ok_elim {res : Resolver} {st : Store} {uri : String}
    {payload : Option Payload} {nid : Nat} {st' : Store}
    (h : set_vfs res st uri payload = (.ok nid, st')) :
    res st uri = some nid ∧
    setConflict res st uri nid (pickProps payload SET_WHITELIST) = false ∧
    st' = setN st nid (simplifyName (assignProps (getN st nid)
      (sanitizeMasks (pickProps payload SET_WHITELIST)))) := by
  unfold set_vfs at h
  split at h
  · simp at h
  · rename_i nid' hres
    split at h
    · simp at h
    · rename_i hconf
      simp only [Prod.mk.injEq, Except.ok.injEq] at h
      obtain ⟨rfl, rfl⟩ := h
      exact ⟨hres, Bool.eq_false_iff.mpr hconf, rfl⟩

end HfsVfs

namespace HfsVfs

/-! ### C10: how `set_vfs` merges sanitized properties -/

/-- **C10 counterexample.** On `stSet`, a `set_vfs` whose payload contains
only `source` (no `name` key at all) still clears the node's explicit `name`:
after the merge, `simplifyName` finds the new source's base name equal to the
stored name `b` and drops it.  So "a whitelisted property absent from the
payload leaves the node's existing field untouched" is false for `name`. -/
theorem set_vfs_absent_name_dropped_counterexample :
    payloadSrc "name" = none ∧
    (set_vfs resSet stSet "/b" (some payloadSrc)).1 = .ok 1 ∧
    (getN stSet 1).fields "name" = some (.str "b") ∧
    (getN (set_vfs resSet stSet "/b" (some payloadSrc)).2 1).fields "name" = none :=
  ⟨rfl, rfl, rfl, rfl⟩

/-- **C10 (amended).** In a successful `set_vfs`, a whitelisted property whose
payload value is `null` or the empty string is cleared on the node; a
whitelisted property other than `name` that is absent from the payload is left
untouched; the `name` field, when absent from the payload, is additionally
subject to `simplifyName`: an absent stored name stays absent, and a stored
string name is dropped exactly when the merged node's source base name equals
it (and is otherwise untouched). -/
theorem set_vfs_prop_merge (res : Resolver) (st : Store) (uri : String)
    (p : Payload) (nid : Nat) (st' : Store) (k : String)
    (h : set_vfs res st uri (some p) = (.ok nid, st'))
    (hk : k ∈ SET_WHITELIST) :
    ((p k = some .null ∨ p k = some (.val (.str ""))) →
        (getN st' nid).fields k = none) ∧
    (p k = none → k ≠ "name" →
        (getN st' nid).fields k = (getN st nid).fields k) ∧
    (p "name" = none →
        ((getN st nid).fields "name" = none → (getN st' nid).fields "name" = none) ∧
        (∀ s, (getN st nid).fields "name" = some (.str s) →
          (getN st' nid).fields "name" =
            (if sourceBase (assignProps (getN st nid)
                  (sanitizeMasks (pickProps (some p) SET_WHITELIST))) = s
             then none else some (.str s)))) := by
  obtain ⟨hres, hconf, hst⟩ := set_vfs_ok_elim h
  by_cases hlt : nid < st.length
  · have hget : getN st' nid = simplifyName (assignProps (getN st nid)
        (sanitizeMasks (pickProps (some p) SET_WHITELIST))) := by
      rw [hst]; exact getN_setN_self hlt _
    refine ⟨?_, ?_, ?_⟩
    · intro hp
      have hpk : pickProps (some p) SET_WHITELIST k = .undef := by
        rcases hp with hp | hp
        · exact pickProps_of_null hk hp
        · exact pickProps_of_empty hk hp
      have hsan : sanitizeMasks (pickProps (some p) SET_WHITELIST) k = .undef := by
        by_cases hm : k = "masks"
        · subst hm; simp [sanitizeMasks, hpk]
        · rw [sanitizeMasks_ne _ _ hm, hpk]
      have hassign : (assignProps (getN st nid)
          (sanitizeMasks (pickProps (some p) SET_WHITELIST))).fields k = none := by
        rw [fields_assignProps, hsan]
      rw [hget]
      exact fields_simplifyName_none _ _ hassign
    · intro hp hkname
      have hpk : pickProps (some p) SET_WHITELIST k = .absent := pickProps_of_absent hp
      have hsan : sanitizeMasks (pickProps (some p) SET_WHITELIST) k = .absent := by
        by_cases hm : k = "masks"
        · subst hm; simp [sanitizeMasks, hpk]
        · rw [sanitizeMasks_ne _ _ hm, hpk]
      rw [hget, fields_simplifyName_ne _ _ hkname, fields_assignProps, hsan]
    · intro hp
      have hpk : pickProps (some p) SET_WHITELIST "name" = .absent := pickProps_of_absent hp
      have hsan : sanitizeMasks (pickProps (some p) SET_WHITELIST) "name" = .absent := by
        rw [sanitizeMasks_ne _ _ (by decide), hpk]
      have hassign : (assignProps (getN st nid)
          (sanitizeMasks (pickProps (some p) SET_WHITELIST))).fields "name"
            = (getN st nid).fields "name" := by
        rw [fields_assignProps, hsan]
      constructor
      · intro hnone
        rw [hget]
        exact fields_simplifyName_none _ _ (hassign.trans hnone)
      · intro s hs
        rw [hget]
        have hm : (assignProps (getN st nid)
            (sanitizeMasks (pickProps (some p) SET_WHITELIST))).fields "name"
              = some (.str s) := hassign.trans hs
        by_cases hdrop : sourceBase (assignProps (getN st nid)
            (sanitizeMasks (pickProps (some p) SET_WHITELIST))) = s
        · rw [if_pos hdrop, simplifyName_of_drop hm hdrop]
          exact dropNameField_name _
        · rw [if_neg hdrop, simplifyName_of_keep hm hdrop, hm]
  · have hnoop : st' = st := by
      rw [hst, setN_oob (le_of_not_lt hlt)]
    have hdef : getN st nid = default := getN_oob (le_of_not_lt hlt)
    subst hnoop
    refine ⟨?_, ?_, ?_⟩
    · intro hp
      rw [hdef]; rfl
    · intro hp hkname
      rfl
    · intro hp
      constructor
      · intro hnone
        exact hnone
      · intro s hs
        rw [hdef] at hs
        exact absurd hs (by simp [default])

/-- Witness for the amended C10 on concrete data: with payload
`{ source: "/x/b" }` on node `b` of `stSet`, a `null`-valued key would be
cleared, an absent non-name key is untouched, and the absent `name` key is
dropped because the merged source's base name equals it. -/
theorem set_vfs_prop_merge_witness :
    (getN (set_vfs resSet stSet "/b" (some payloadSrc)).2 1).fields "accept"
      = (getN stSet 1).fields "accept" ∧
    (getN (set_vfs resSet stSet "/b" (some payloadSrc)).2 1).fields "name" = none := by
  have h := set_vfs_prop_merge resSet stSet "/b" payloadSrc 1
    (set_vfs resSet stSet "/b" (some payloadSrc)).2 "accept" (by rfl) (by decide)
  have h2 := set_vfs_prop_merge resSet stSet "/b" payloadSrc 1
    (set_vfs resSet stSet "/b" (some payloadSrc)).2 "name" (by rfl) (by decide)
  refine ⟨h.2.1 (by rfl) (by decide), ?_⟩
  have := (h2.2.2 (by rfl)).2 "b" (by rfl)
  rw [this]
  decide

end HfsVfs

namespace HfsVfs

/-! ### Properties of the decimal rendering `decRepr` -/

theorem decReprCore_eq : ∀ (fuel n : Nat) (acc : List Char), n < fuel →
    decReprCore fuel n acc =
      (if n = 0 then ['0'] else (Nat.digits 10 n).reverse.map Nat.digitChar) ++ acc := by
  intro fuel
  induction fuel with
  | zero => intro n acc h; omega
  | succ f ih =>
    intro n acc h
    simp only [decReprCore]
    by_cases h10 : n < 10
    · rw [if_pos h10]
      by_cases h0 : n = 0
      · subst h0; rfl
      · rw [if_neg h0]
        have hd : Nat.digits 10 n = [n % 10] := by
          rw [Nat.digits_def' (by norm_num : (1:Nat) < 10) (Nat.pos_of_ne_zero h0)]
          rw [Nat.div_eq_of_lt h10]
          rw [Nat.mod_eq_of_lt h10]
          simp
        rw [hd]
        simp
    · rw [if_neg h10]
      have hn0 : n ≠ 0 := by omega
      have hdivlt : n / 10 < f := by
        have h1 : n / 10 < n := Nat.div_lt_self (Nat.pos_of_ne_zero hn0) (by norm_num)
        omega
      rw [ih (n / 10) (Nat.digitChar (n % 10) :: acc) hdivlt]
      have hd10 : n / 10 ≠ 0 := by
        intro hc
        have := Nat.div_eq_of_lt (by omega : n < 10)
        omega
      rw [if_neg hd10]
      rw [Nat.digits_def' (by norm_num : (1:Nat) < 10) (Nat.pos_of_ne_zero hn0)]
      rw [if_neg hn0]
      simp

theorem decRepr_eq (n : Nat) :
    decRepr n = ⟨(if n = 0 then ['0'] else (Nat.digits 10 n).reverse.map Nat.digitChar)⟩ := by
  unfold decRepr
  rw [decReprCore_eq (n + 1) n [] (Nat.lt_succ_self n)]
  rw [List.append_nil]

theorem decRepr_length_pos (n : Nat) : 0 < (decRepr n).length := by
  rw [decRepr_eq]
  by_cases h0 : n = 0
  · subst h0; decide
  · rw [if_neg h0]
    have hne : Nat.digits 10 n ≠ [] := Nat.digits_ne_nil_iff_ne_zero.mpr h0
    simp only [String.length]
    simp only [List.length_map, List.length_reverse]
    exact List.length_pos.mpr hne

theorem digitChar_inj_lt : ∀ x < 10, ∀ y < 10,
    Nat.digitChar x = Nat.digitChar y → x = y := by
  decide

theorem map_digitChar_inj : ∀ (l1 l2 : List Nat),
    (∀ x ∈ l1, x < 10) → (∀ x ∈ l2, x < 10) →
    l1.map Nat.digitChar = l2.map Nat.digitChar → l1 = l2 := by
  intro l1
  induction l1 with
  | nil =>
    intro l2 _ _ h
    cases l2 with
    | nil => rfl
    | cons b t => simp at h
  | cons a t1 ih =>
    intro l2 h1 h2 h
    cases l2 with
    | nil => simp at h
    | cons b t2 =>
      simp only [List.map_cons, List.cons.injEq] at h
      have ha : a = b := digitChar_inj_lt a (h1 a (by simp)) b (h2 b (by simp)) h.1
      have ht : t1 = t2 := ih t2 (fun x hx => h1 x (by simp [hx]))
        (fun x hx => h2 x (by simp [hx])) h.2
      rw [ha, ht]

theorem decRepr_injective : Function.Injective decRepr := by
  intro a b h
  rw [decRepr_eq, decRepr_eq] at h
  have hdata : (if a = 0 then ['0'] else (Nat.digits 10 a).reverse.map Nat.digitChar)
      = (if b = 0 then ['0'] else (Nat.digits 10 b).reverse.map Nat.digitChar) := by
    exact congrArg String.data h
  have key : ∀ m : Nat, m ≠ 0 →
      (Nat.digits 10 m).reverse.map Nat.digitChar = ['0'] → False := by
    intro m hm hc
    have : Nat.digits 10 m = [0] := by
      have hlt : ∀ x ∈ (Nat.digits 10 m).reverse, x < 10 := by
        intro x hx
        exact Nat.digits_lt_base (by norm_num) (List.mem_reverse.mp hx)
      have h0 : ∀ x ∈ [0], x < 10 := by decide
      have := map_digitChar_inj _ [0] hlt h0 (by simpa using hc)
      have hr := congrArg List.reverse this
      simpa using hr
    have hod := Nat.ofDigits_digits 10 m
    rw [this] at hod
    simp [Nat.ofDigits] at hod
    exact hm hod.symm
  by_cases ha : a = 0 <;> by_cases hb : b = 0
  · omega
  · rw [if_pos ha, if_neg hb] at hdata
    exact absurd hdata.symm (fun hc => key b hb hc)
  · rw [if_neg ha, if_pos hb] at hdata
    exact absurd hdata (fun hc => key a ha hc)
  · rw [if_neg ha, if_neg hb] at hdata
    have hla : ∀ x ∈ (Nat.digits 10 a).reverse, x < 10 := fun x hx =>
      Nat.digits_lt_base (by norm_num) (List.mem_reverse.mp hx)
    have hlb : ∀ x ∈ (Nat.digits 10 b).reverse, x < 10 := fun x hx =>
      Nat.digits_lt_base (by norm_num) (List.mem_reverse.mp hx)
    have heq := map_digitChar_inj _ _ hla hlb hdata
    have hdig : Nat.digits 10 a = Nat.digits 10 b := by
      have := congrArg List.reverse heq
      simpa using this
    have h1 := Nat.ofDigits_digits 10 a
    have h2 := Nat.ofDigits_digits 10 b
    rw [← h1, ← h2, hdig]

end HfsVfs

namespace HfsVfs

/-! ### The disambiguation loop: candidates, spec, fuel sufficiency -/

theorem candName_injective (noExt ext : String) :
    Function.Injective (candName noExt ext) := by
  intro i j h
  apply decRepr_injective
  unfold candName at h
  have hd := congrArg String.data h
  simp only [String.data_append] at hd
  have h1 := List.append_cancel_right hd
  have h2 := List.append_cancel_left h1
  cases hi : decRepr i with
  | mk di =>
    cases hj : decRepr j with
    | mk dj =>
      rw [hi, hj] at h2
      simp only at h2
      rw [h2]

theorem candName_length (noExt ext : String) (i : Nat) :
    (candName noExt ext i).length
      = noExt.length + 1 + (decRepr i).length + ext.length := by
  have h1 : (" " : String).length = 1 := rfl
  unfold candName
  rw [String.length_append, String.length_append, String.length_append, h1]

theorem candName_ne_empty (noExt ext : String) (i : Nat) :
    candName noExt ext i ≠ "" := by
  intro h
  have hl := congrArg String.length h
  rw [candName_length] at hl
  have h0 : ("" : String).length = 0 := rfl
  rw [h0] at hl
  have := decRepr_length_pos i
  omega

theorem seqFrom_succ (cand : Nat → String) :
    ∀ (j idx : Nat) (cur : String),
      seqFrom cand idx cur (j + 1) = cand (idx + j) := by
  intro j
  induction j with
  | zero => intro idx cur; simp [seqFrom]
  | succ j ih =>
    intro idx cur
    have : seqFrom cand idx cur (j + 1 + 1) = seqFrom cand (idx + 1) (cand idx) (j + 1) := rfl
    rw [this, ih (idx + 1) (cand idx)]
    congr 1
    omega

/-- Specification of the `while` loop `addNameLoop`: provided some candidate
within the fuel is free, the loop returns the *first* free candidate of the
sequence. -/
theorem addNameLoop_spec (taken : String → Bool) (noExt ext : String) :
    ∀ (fuel idx : Nat) (cur : String),
      (∃ j, j < fuel ∧ taken (seqFrom (candName noExt ext) idx cur j) = false) →
      ∃ j, j < fuel ∧
        addNameLoop taken noExt ext fuel idx cur
          = seqFrom (candName noExt ext) idx cur j ∧
        taken (seqFrom (candName noExt ext) idx cur j) = false ∧
        ∀ j', j' < j → taken (seqFrom (candName noExt ext) idx cur j') = true := by
  intro fuel
  induction fuel with
  | zero =>
    rintro idx cur ⟨j, hj, -⟩
    omega
  | succ f ih =>
    intro idx cur hex
    by_cases ht : taken cur = true
    · obtain ⟨j, hj, hfree⟩ := hex
      cases j with
      | zero =>
        rw [show seqFrom (candName noExt ext) idx cur 0 = cur from rfl] at hfree
        rw [ht] at hfree
        exact absurd hfree (by simp)
      | succ j' =>
        have hex' : ∃ j, j < f ∧
            taken (seqFrom (candName noExt ext) (idx + 1) (candName noExt ext idx) j) = false :=
          ⟨j', by omega, hfree⟩
        obtain ⟨j0, hj0, heq, hfree0, hmin⟩ := ih (idx + 1) (candName noExt ext idx) hex'
        refine ⟨j0 + 1, by omega, ?_, hfree0, ?_⟩
        · rw [show addNameLoop taken noExt ext (f + 1) idx cur
              = addNameLoop taken noExt ext f (idx + 1) (candName noExt ext idx)
            from by simp [addNameLoop, ht]]
          exact heq
        · intro j' hj'
          cases j' with
          | zero => exact ht
          | succ k => exact hmin k (by omega)
    · refine ⟨0, by omega, ?_, ?_, ?_⟩
      · have hred : addNameLoop taken noExt ext (f + 1) idx cur = cur := by
          simp [addNameLoop, ht]
        rw [hred]
        rfl
      · simpa using ht
      · intro j' hj'
        omega

/-- Fuel sufficiency: among the first `names.length + 2` candidates of the
sequence there is always one not contained in `names` (the `names.length + 1`
proper candidates are pairwise distinct, so they cannot all occur in
`names`). -/
theorem exists_free_cand (names : List String) (noExt ext : String) (name0 : String) :
    ∃ j, j < names.length + 2 ∧
      names.contains (seqFrom (candName noExt ext) 2 name0 j) = false := by
  by_contra hc
  push_neg at hc
  have hall : ∀ j, j < names.length + 2 →
      names.contains (seqFrom (candName noExt ext) 2 name0 j) = true := by
    intro j hj
    have := hc j hj
    cases hb : names.contains (seqFrom (candName noExt ext) 2 name0 j)
    · exact absurd hb this
    · rfl
  have hsub : ((List.range' 2 (names.length + 1)).map (candName noExt ext)) ⊆ names := by
    intro x hx
    rw [List.mem_map] at hx
    obtain ⟨i, hi, rfl⟩ := hx
    rw [List.mem_range'] at hi
    obtain ⟨h2i, hilt⟩ := hi
    have hj : (i - 2) + 1 < names.length + 2 := by omega
    have := hall ((i - 2) + 1) hj
    rw [seqFrom_succ] at this
    have hidx : 2 + (i - 2) = i := by omega
    rw [hidx] at this
    have : candName noExt ext i ∈ names := by
      simpa [List.contains] using this
    exact this
  have hnodup : ((List.range' 2 (names.length + 1)).map (candName noExt ext)).Nodup :=
    (List.nodup_range' _ _).map (candName_injective noExt ext)
  have hsp := hnodup.subperm hsub
  have hlen := hsp.length_le
  rw [List.length_map, List.length_range'] at hlen
  omega

end HfsVfs

namespace HfsVfs

/-- The disambiguation result characterized: the returned name is the first
candidate of the try-sequence not contained among the sibling names. -/
theorem addFinalName_spec (st : Store) (pid : Nat) (child0 : VfsNode) :
    ∃ j, j < (childNames st pid).length + 2 ∧
      addFinalName st pid child0
        = seqFrom (candName (addNoExt (getNodeName child0)) (extname (getNodeName child0)))
            2 (getNodeName child0) j ∧
      (childNames st pid).contains (addFinalName st pid child0) = false ∧
      ∀ j', j' < j → (childNames st pid).contains
        (seqFrom (candName (addNoExt (getNodeName child0)) (extname (getNodeName child0)))
          2 (getNodeName child0) j') = true := by
  obtain ⟨j, hj, heq, hfree, hmin⟩ :=
    addNameLoop_spec (addTaken st pid) (addNoExt (getNodeName child0))
      (extname (getNodeName child0)) ((childNames st pid).length + 2) 2 (getNodeName child0)
      (exists_free_cand (childNames st pid) (addNoExt (getNodeName child0))
        (extname (getNodeName child0)) (getNodeName child0))
  refine ⟨j, hj, heq, ?_, hmin⟩
  rw [show addFinalName st pid child0
      = addNameLoop (addTaken st pid) (addNoExt (getNodeName child0))
          (extname (getNodeName child0)) ((childNames st pid).length + 2) 2 (getNodeName child0)
    from rfl, heq]
  exact hfree

/-- The generated name of `add_vfs` never collides with an existing sibling
name. -/
theorem addFinalName_not_taken (st : Store) (pid : Nat) (child0 : VfsNode) :
    (childNames st pid).contains (addFinalName st pid child0) = false := by
  obtain ⟨j, -, -, hfree, -⟩ := addFinalName_spec st pid child0
  exact hfree

/-- A successful `add_vfs` pins down the parent resolution, the directory
check, the returned name and the resulting store. -/
theorem add_vfs_ok_elim {res : Resolver} {fsIsDir : String → Option Bool}
    {rootId : Nat} {st : Store} {parent? source? name? : Option String}
    {nm : String} {st₂ : Store}
    (h : add_vfs res fsIsDir rootId st parent? source? name? = (.ok nm, st₂)) :
    ∃ pid,
      (if falsyS parent? then some rootId else res st (parent?.getD "")) = some pid ∧
      nodeIsDirectory fsIsDir (getN st pid) = true ∧
      nm = addFinalName st pid (addChild0 (addSource1 source?) name?) ∧
      st₂ = addApply st pid (simplifyName (setNameField
        (addChild0 (addSource1 source?) name?) nm)) := by
  unfold add_vfs at h
  split at h
  · simp at h
  · split at h
    · simp at h
    · rename_i pid hpid
      split at h
      · simp at h
      · rename_i hdir
        have hdir' : nodeIsDirectory fsIsDir (getN st pid) = true := by
          revert hdir
          cases nodeIsDirectory fsIsDir (getN st pid) <;> simp
        split at h
        · unfold addOk at h
          simp only [Prod.mk.injEq, Except.ok.injEq] at h
          refine ⟨pid, hpid, hdir', h.1.symm, ?_⟩
          rw [← h.1]
          exact h.2.symm
        · split at h
          · simp at h
          · unfold addOk at h
            simp only [Prod.mk.injEq, Except.ok.injEq] at h
            refine ⟨pid, hpid, hdir', h.1.symm, ?_⟩
            rw [← h.1]
            exact h.2.symm

end HfsVfs

namespace HfsVfs

/-! ### C4: name disambiguation and front insertion in `add_vfs` -/

/-- **C4.** When the computed effective name of an `add_vfs` collides with an
existing sibling, the returned name is the original name with a numeric
disambiguator inserted before the extension — the first free candidate
`noExt ++ " " ++ k ++ ext` with `k` counted up from 2 — and the new node's id
is inserted at the *front* of the parent's children; concretely, adding
`report.txt` three times to an empty root yields `report.txt`,
`report 2.txt`, `report 3.txt`. -/
theorem add_vfs_collision_disambiguation :
    (∀ (res : Resolver) (fsIsDir : String → Option Bool) (rootId : Nat) (st : Store)
        (parent? source? name? : Option String) (nm : String) (st₂ : Store) (pid : Nat),
        add_vfs res fsIsDir rootId st parent? source? name? = (.ok nm, st₂) →
        (if falsyS parent? then some rootId else res st (parent?.getD "")) = some pid →
        pid < st.length →
        (childNames st pid).contains
          (getNodeName (addChild0 (addSource1 source?) name?)) = true →
        ((∃ k, 2 ≤ k ∧
            nm = candName (addNoExt (getNodeName (addChild0 (addSource1 source?) name?)))
                  (extname (getNodeName (addChild0 (addSource1 source?) name?))) k ∧
            (childNames st pid).contains nm = false ∧
            ∀ j, 2 ≤ j → j < k →
              (childNames st pid).contains
                (candName (addNoExt (getNodeName (addChild0 (addSource1 source?) name?)))
                  (extname (getNodeName (addChild0 (addSource1 source?) name?))) j) = true) ∧
          (getN st₂ pid).children = some (st.length :: (getN st pid).children.getD []))) ∧
    ((add_vfs noResolver noFsOracle 0 stAdd0 none none (some "report.txt")).1
        = .ok "report.txt" ∧
     (add_vfs noResolver noFsOracle 0 stAdd1 none none (some "report.txt")).1
        = .ok "report 2.txt" ∧
     (add_vfs noResolver noFsOracle 0 stAdd2 none none (some "report.txt")).1
        = .ok "report 3.txt") := by
  constructor
  · intro res fsIsDir rootId st parent? source? name? nm st₂ pid h hpid hplt hcoll
    obtain ⟨pid', hpid', hdir, hnm, hst⟩ := add_vfs_ok_elim h
    rw [hpid] at hpid'
    obtain rfl : pid = pid' := (Option.some.injEq _ _).mp hpid'
    constructor
    · obtain ⟨j, hj, heq, hfree, hmin⟩ :=
        addFinalName_spec st pid (addChild0 (addSource1 source?) name?)
      cases j with
      | zero =>
        rw [show seqFrom (candName (addNoExt (getNodeName (addChild0 (addSource1 source?) name?)))
              (extname (getNodeName (addChild0 (addSource1 source?) name?))))
              2 (getNodeName (addChild0 (addSource1 source?) name?)) 0
            = getNodeName (addChild0 (addSource1 source?) name?) from rfl] at heq
        rw [heq, hcoll] at hfree
        exact absurd hfree (by simp)
      | succ t =>
        refine ⟨2 + t, by omega, ?_, ?_, ?_⟩
        · rw [hnm, heq, seqFrom_succ]
        · rw [hnm]
          exact addFinalName_not_taken st pid _
        · intro j hj2 hjk
          have hlt : (j - 2) + 1 < t + 1 := by omega
          have := hmin ((j - 2) + 1) hlt
          rw [seqFrom_succ] at this
          have hidx : 2 + (j - 2) = j := by omega
          rw [hidx] at this
          exact this
    · rw [hst]
      unfold addApply
      have hplt' : pid < (setN st pid { getN st pid with
          children := some (st.length :: (getN st pid).children.getD []) }).length := by
        rw [length_setN]; exact hplt
      rw [getN_append_lt (by rw [length_setN]; exact hplt)]
      rw [getN_setN_self hplt]
  · exact ⟨rfl, rfl, rfl⟩

/-- Witness for C4 on concrete data: the second add of `report.txt` returns a
disambiguated candidate name, with the new node id at the front of the root's
children. -/
theorem add_vfs_collision_disambiguation_witness :
    (∃ k, 2 ≤ k ∧
        ("report 2.txt" : String)
          = candName (addNoExt "report.txt") (extname "report.txt") k) ∧
    (getN stAdd2 0).children = some [2, 1] := by
  have h := add_vfs_collision_disambiguation.1 noResolver noFsOracle 0 stAdd1 none none
    (some "report.txt") "report 2.txt" stAdd2 0 (by rfl) (by rfl) (by decide) (by decide)
  refine ⟨?_, ?_⟩
  · obtain ⟨⟨k, hk2, hcand, -, -⟩, -⟩ := h
    exact ⟨k, hk2, hcand⟩
  · exact h.2

end HfsVfs

namespace HfsVfs

/-! ### C1: sibling effective-name uniqueness -/

/-- **C1 counterexample.** On `stSetC1` (root children named `c` and `b`),
a successful `set_vfs` with payload `{ name: null }` on `/c` clears the
explicit name without any conflict check; the effective name falls back to
`basename("/x/b") = "b"`, colliding with the sibling: the root's children
names become `["b", "b"]`. -/
theorem set_vfs_cleared_name_collision_counterexample :
    NamesOk stSetC1 ∧
    (set_vfs resSetC1 stSetC1 "/c" (some payloadNameNull)).1 = .ok 1 ∧
    childNames (set_vfs resSetC1 stSetC1 "/c" (some payloadNameNull)).2 0 = ["b", "b"] ∧
    ¬ NamesOk (set_vfs resSetC1 stSetC1 "/c" (some payloadNameNull)).2 :=
  ⟨by decide, by rfl, by decide, by decide⟩

theorem not_mem_of_contains_false {l : List String} {s : String}
    (h : l.contains s = false) : s ∉ l := by
  intro hm
  have := List.elem_eq_true_of_mem hm
  rw [show List.elem s l = l.contains s from rfl, h] at this
  exact Bool.noConfusion this

/-- From value of the conflict `find` being falsy: the moved node's name is
none of the destination children's names. -/
theorem name_not_mem_of_any_false {st : Store} {fromId parentId : Nat}
    (hconf : (((getN st parentId).children.getD []).any
      (fun x => getNodeName (getN st fromId) == getNodeName (getN st x))) = false) :
    getNodeName (getN st fromId)
      ∉ (((getN st parentId).children.getD []).map (fun c => getNodeName (getN st c))) := by
  intro hmem
  rw [List.mem_map] at hmem
  obtain ⟨x, hx, hfx⟩ := hmem
  rw [List.any_eq_false] at hconf
  have := hconf x hx
  rw [hfx] at this
  simp at this

/-- `moveApply` at a destination that is its own old parent. -/
theorem moveApply_children_parent_self (st : Store) (fromId parentId : Nat)
    (hlt : parentId < st.length) :
    (getN (moveApply st fromId parentId parentId) parentId).children =
      some ((((getN st parentId).children.getD []).filter (fun x => x ≠ fromId))
        ++ [fromId]) := by
  simp only [moveApply]
  have hlt1 : parentId < (setN st parentId
      { getN st parentId with
        children := if (((getN st parentId).children.getD []).filter
            (fun x => x ≠ fromId)).isEmpty then none
          else some (((getN st parentId).children.getD []).filter (fun x => x ≠ fromId)) }).length := by
    rw [length_setN]
    exact hlt
  rw [getN_setN_self hlt1]
  simp only
  rw [getN_setN_self hlt]
  simp only
  split
  · rename_i hemp
    rw [List.isEmpty_iff] at hemp
    rw [hemp]
    rfl
  · rfl

/-- Any node's scalar fields survive `moveApply`. -/
theorem fields_moveApply (st : Store) (fromId parentId oldId c : Nat) :
    (getN (moveApply st fromId parentId oldId) c).fields = (getN st c).fields := by
  simp only [moveApply]
  exact (fields_setChildren _ parentId _ c).trans (fields_setChildren st oldId _ c)

theorem length_moveApply (st : Store) (fromId parentId oldId : Nat) :
    (moveApply st fromId parentId oldId).length = st.length := by
  simp only [moveApply]
  rw [length_setN, length_setN]

theorem getN_moveApply_other (st : Store) (fromId parentId oldId i : Nat)
    (hip : i ≠ parentId) (hio : i ≠ oldId) :
    getN (moveApply st fromId parentId oldId) i = getN st i := by
  simp only [moveApply]
  rw [getN_setN_ne hip, getN_setN_ne hio]

/-- `moveApply` keeps sibling-name uniqueness when the destination has no
child with the moved node's effective name. -/
theorem namesOk_moveApply (st : Store) (fromId parentId oldId : Nat)
    (hN : NamesOk st)
    (hconf : (((getN st parentId).children.getD []).any
      (fun x => getNodeName (getN st fromId) == getNodeName (getN st x))) = false) :
    NamesOk (moveApply st fromId parentId oldId) := by
  have hname : ∀ c, getNodeName (getN (moveApply st fromId parentId oldId) c)
      = getNodeName (getN st c) :=
    fun c => getNodeName_eq_of_fields (fields_moveApply st fromId parentId oldId c)
  have hcn : ∀ lst : List Nat,
      lst.map (fun c => getNodeName (getN (moveApply st fromId parentId oldId) c))
        = lst.map (fun c => getNodeName (getN st c)) :=
    fun lst => List.map_congr_left (fun c _ => hname c)
  intro i hi
  rw [length_moveApply] at hi
  unfold childNames
  by_cases hip : i = parentId
  · subst hip
    by_cases hop : oldId = i
    · subst hop
      rw [moveApply_children_parent_self st fromId oldId hi]
      simp only [Option.getD_some]
      rw [hcn, List.map_append]
      refine List.Nodup.append ?_ (List.nodup_singleton _) ?_
      · exact (((List.filter_sublist _).map _).nodup (hN oldId hi))
      · simp only [List.map_cons, List.map_nil]
        rw [List.disjoint_singleton]
        intro hmem
        apply name_not_mem_of_any_false hconf
        rw [List.mem_map] at hmem
        obtain ⟨x, hx, hfx⟩ := hmem
        rw [List.mem_map]
        exact ⟨x, (List.filter_sublist _).subset hx, hfx⟩
    · rw [moveApply_children_parent st fromId i oldId hop hi]
      simp only [Option.getD_some]
      rw [hcn, List.map_append]
      refine List.Nodup.append (hN i hi) (List.nodup_singleton _) ?_
      simp only [List.map_cons, List.map_nil]
      rw [List.disjoint_singleton]
      exact name_not_mem_of_any_false hconf
  · by_cases hio : i = oldId
    · subst hio
      rw [moveApply_children_old st fromId parentId i (fun h => hip h) hi]
      split
      · simp
      · simp only [Option.getD_some]
        rw [hcn]
        exact (((List.filter_sublist _).map _).nodup (hN i hi))
    · rw [getN_moveApply_other st fromId parentId oldId i hip hio, hcn]
      exact hN i hi

end HfsVfs

namespace HfsVfs

/-- Sibling-name uniqueness is preserved by every successful `move_vfs`. -/
theorem move_vfs_preserves_namesOk (res : Resolver) (root : Nat) (st : Store)
    (fr par : Option String) (st₂ : Store)
    (hN : NamesOk st) (h : move_vfs res root st fr par = (.ok (), st₂)) :
    NamesOk st₂ := by
  obtain ⟨fromId, parentId, oldId, -, -, -, -, -, hconf, -, hst⟩ := move_vfs_ok_elim h
  subst hst
  exact namesOk_moveApply st fromId parentId oldId hN hconf

theorem getNodeName_setNameField (n : VfsNode) (s : String) :
    getNodeName (setNameField n s) = if s = "" then sourceBase n else s := by
  have hsb : sourceBase (setNameField n s) = sourceBase n := by
    unfold sourceBase setNameField
    simp
  unfold getNodeName
  rw [show (setNameField n s).fields "name" = some (.str s) from by simp [setNameField]]
  rw [hsb]

theorem children_setNameField (n : VfsNode) (s : String) :
    (setNameField n s).children = n.children := rfl

theorem sourceBase_of_name_empty {n : VfsNode} (h : getNodeName n = "") :
    sourceBase n = "" := by
  cases hn : n.fields "name" with
  | none => simpa [getNodeName, hn] using h
  | some v =>
    cases v with
    | str s =>
      simp only [getNodeName, hn] at h
      by_cases hs : s = ""
      · rw [if_pos hs] at h; exact h
      · rw [if_neg hs] at h; exact absurd h hs
    | bool b => simpa [getNodeName, hn] using h
    | num w => simpa [getNodeName, hn] using h
    | obj id => simpa [getNodeName, hn] using h

/-- If the disambiguation returned the empty string, the starting name was
already empty (every proper candidate is nonempty). -/
theorem addFinalName_empty {st : Store} {pid : Nat} {child0 : VfsNode}
    (h : addFinalName st pid child0 = "") : getNodeName child0 = "" := by
  obtain ⟨j, -, heq, -, -⟩ := addFinalName_spec st pid child0
  cases j with
  | zero => rw [h] at heq; exact heq.symm
  | succ t =>
    rw [seqFrom_succ] at heq
    rw [h] at heq
    exact absurd heq.symm (candName_ne_empty _ _ _)

/-- The effective name of the finished child equals the generated name. -/
theorem getNodeName_addChild2 (st : Store) (pid : Nat) (child0 : VfsNode) :
    getNodeName (simplifyName (setNameField child0 (addFinalName st pid child0)))
      = addFinalName st pid child0 := by
  rw [getNodeName_simplifyName, getNodeName_setNameField]
  by_cases hs : addFinalName st pid child0 = ""
  · rw [if_pos hs, hs]
    exact sourceBase_of_name_empty (addFinalName_empty hs)
  · rw [if_neg hs]

/-- Sibling-name uniqueness is preserved by every successful `add_vfs` on a
well-formed store (children ids in range). -/
theorem add_vfs_preserves_namesOk (res : Resolver) (fsIsDir : String → Option Bool)
    (rootId : Nat) (st : Store) (parent? source? name? : Option String)
    (nm : String) (st₂ : Store)
    (hN : NamesOk st) (hIds : IdsOk st)
    (h : add_vfs res fsIsDir rootId st parent? source? name? = (.ok nm, st₂)) :
    NamesOk st₂ := by
  obtain ⟨pid, hpid, -, hnm, hst⟩ := add_vfs_ok_elim h
  subst hnm
  subst hst
  set child0 := addChild0 (addSource1 source?) name? with hchild0
  set child2 := simplifyName (setNameField child0 (addFinalName st pid child0)) with hchild2
  have hch2children : child2.children = none := by
    rw [hchild2, simplifyName_children, children_setNameField]
    rfl
  have hch2name : getNodeName child2 = addFinalName st pid child0 :=
    getNodeName_addChild2 st pid child0
  by_cases hplt : pid < st.length
  · have hlen : (addApply st pid child2).length = st.length + 1 := by
      unfold addApply
      rw [List.length_append, length_setN]
      rfl
    have hfields : ∀ c, c < st.length →
        (getN (addApply st pid child2) c).fields = (getN st c).fields := by
      intro c hc
      unfold addApply
      rw [getN_append_lt (by rw [length_setN]; exact hc)]
      exact fields_setChildren st pid _ c
    have hnames : ∀ c, c < st.length →
        getNodeName (getN (addApply st pid child2) c) = getNodeName (getN st c) :=
      fun c hc => getNodeName_eq_of_fields (hfields c hc)
    have hnew : getN (addApply st pid child2) st.length = child2 := by
      unfold addApply
      have : getN (setN st pid { getN st pid with
          children := some (st.length :: (getN st pid).children.getD []) } ++ [child2])
          (setN st pid { getN st pid with
            children := some (st.length :: (getN st pid).children.getD []) }).length
          = child2 := getN_append_self _ _
      rw [length_setN] at this
      exact this
    intro i hi
    rw [hlen] at hi
    unfold childNames
    rcases Nat.lt_or_ge i st.length with hilt | hige
    · by_cases hipid : i = pid
      · subst hipid
        have hgi : (getN (addApply st i child2) i).children
            = some (st.length :: (getN st i).children.getD []) := by
          unfold addApply
          rw [getN_append_lt (by rw [length_setN]; exact hilt)]
          rw [getN_setN_self hilt]
        rw [hgi]
        simp only [Option.getD_some, List.map_cons]
        have hhd : getNodeName (getN (addApply st i child2) st.length)
            = addFinalName st i child0 := by
          rw [hnew]
          exact hch2name
        rw [hhd]
        have htl : List.map (fun c => getNodeName (getN (addApply st i child2) c))
            ((getN st i).children.getD [])
            = List.map (fun c => getNodeName (getN st c)) ((getN st i).children.getD []) := by
          apply List.map_congr_left
          intro c hc
          exact hnames c (hIds i hilt c hc)
        rw [htl]
        apply List.Nodup.cons
        · exact not_mem_of_contains_false (addFinalName_not_taken st i child0)
        · exact hN i hilt
      · have hgi : (getN (addApply st pid child2) i).children = (getN st i).children := by
          unfold addApply
          rw [getN_append_lt (by rw [length_setN]; exact hilt)]
          rw [getN_setN_ne hipid]
        rw [hgi]
        have htl : List.map (fun c => getNodeName (getN (addApply st pid child2) c))
            ((getN st i).children.getD [])
            = List.map (fun c => getNodeName (getN st c)) ((getN st i).children.getD []) := by
          apply List.map_congr_left
          intro c hc
          exact hnames c (hIds i hilt c hc)
        rw [htl]
        exact hN i hilt
    · have hieq : i = st.length := by omega
      subst hieq
      rw [hnew, hch2children]
      simp
  · have hnoop : setN st pid { getN st pid with
        children := some (st.length :: (getN st pid).children.getD []) } = st :=
      setN_oob (le_of_not_lt hplt) _
    have hst2 : addApply st pid child2 = st ++ [child2] := by
      unfold addApply
      rw [hnoop]
    rw [hst2]
    intro i hi
    rw [List.length_append] at hi
    simp only [List.length_singleton] at hi
    unfold childNames
    rcases Nat.lt_or_ge i st.length with hilt | hige
    · rw [getN_append_lt hilt]
      have htl : List.map (fun c => getNodeName (getN (st ++ [child2]) c))
          ((getN st i).children.getD [])
          = List.map (fun c => getNodeName (getN st c)) ((getN st i).children.getD []) := by
        apply List.map_congr_left
        intro c hc
        have hclt : c < st.length := hIds i hilt c hc
        rw [getN_append_lt hclt]
      rw [htl]
      exact hN i hilt
    · have hieq : i = st.length := by omega
      subst hieq
      rw [getN_append_self, hch2children]
      simp

end HfsVfs

namespace HfsVfs

/-- `assignProps` never touches the children. -/
theorem children_assignProps (n : VfsNode) (p : Props) :
    (assignProps n p).children = n.children := rfl

/-- Sibling-name uniqueness is preserved by a successful `set_vfs` whose
merged node keeps its effective name. -/
theorem set_vfs_preserves_namesOk_same_name (res : Resolver) (st : Store)
    (uri : String) (payload : Option Payload) (nid : Nat) (st₂ : Store)
    (hN : NamesOk st)
    (h : set_vfs res st uri payload = (.ok nid, st₂))
    (hsame : getNodeName (simplifyName (assignProps (getN st nid)
        (sanitizeMasks (pickProps payload SET_WHITELIST))))
      = getNodeName (getN st nid)) :
    NamesOk st₂ := by
  obtain ⟨-, -, hst⟩ := set_vfs_ok_elim h
  subst hst
  have hch : ∀ i, (getN (setN st nid (simplifyName (assignProps (getN st nid)
      (sanitizeMasks (pickProps payload SET_WHITELIST))))) i).children
      = (getN st i).children := by
    intro i
    by_cases hi : i = nid
    · subst hi
      by_cases hlt : i < st.length
      · rw [getN_setN_self hlt, simplifyName_children, children_assignProps]
      · rw [setN_oob (le_of_not_lt hlt)]
    · rw [getN_setN_ne hi]
  have hnm : ∀ c, getNodeName (getN (setN st nid (simplifyName (assignProps (getN st nid)
      (sanitizeMasks (pickProps payload SET_WHITELIST))))) c)
      = getNodeName (getN st c) := by
    intro c
    by_cases hc : c = nid
    · subst hc
      by_cases hlt : c < st.length
      · rw [getN_setN_self hlt]
        exact hsame
      · rw [setN_oob (le_of_not_lt hlt)]
    · rw [getN_setN_ne hc]
  intro i hi
  rw [length_setN] at hi
  unfold childNames
  rw [hch i]
  rw [List.map_congr_left (fun c _ => hnm c)]
  exact hN i hi

/-- Replacing, in a duplicate-free name list, the name at the positions of one
id by a name foreign to the whole list keeps it duplicate-free. -/
theorem nodup_map_update {g : Nat → String} {s : String} {nid : Nat} :
    ∀ (l : List Nat), (l.map g).Nodup → (∀ x ∈ l, g x ≠ s) →
      (l.map (fun c => if c = nid then s else g c)).Nodup := by
  intro l
  induction l with
  | nil => intro _ _; simp
  | cons a t ih =>
    intro hnd hs
    rw [List.map_cons, List.nodup_cons] at hnd
    obtain ⟨hna, hndt⟩ := hnd
    rw [List.map_cons, List.nodup_cons]
    constructor
    · by_cases ha : a = nid
      · subst ha
        rw [if_pos rfl]
        intro hmem
        rw [List.mem_map] at hmem
        obtain ⟨x, hx, hfx⟩ := hmem
        by_cases hxa : x = a
        · subst hxa
          exact hna (List.mem_map.mpr ⟨x, hx, rfl⟩)
        · rw [if_neg hxa] at hfx
          exact hs x (List.mem_cons_of_mem a hx) hfx
      · rw [if_neg ha]
        intro hmem
        rw [List.mem_map] at hmem
        obtain ⟨x, hx, hfx⟩ := hmem
        by_cases hxn : x = nid
        · rw [if_pos hxn] at hfx
          exact hs a (List.mem_cons_self a t) hfx.symm
        · rw [if_neg hxn] at hfx
          exact hna (List.mem_map.mpr ⟨x, hx, hfx⟩)
    · exact ih hndt (fun x hx => hs x (List.mem_cons_of_mem a hx))

/-- Sibling-name uniqueness is preserved by a successful `set_vfs` that sets a
nonempty string name, provided `dirname(uri)` resolves to the node's only
parent (the situation the conflict check is written for). -/
theorem set_vfs_preserves_namesOk_renamed (res : Resolver) (st : Store)
    (uri : String) (payload : Option Payload) (nid pid : Nat) (st₂ : Store)
    (s : String)
    (hN : NamesOk st)
    (h : set_vfs res st uri payload = (.ok nid, st₂))
    (hname : pickProps payload SET_WHITELIST "name" = .val (.str s))
    (hs : s ≠ "")
    (hpid : res st (dirname uri) = some pid)
    (hcoh : ∀ q, q < st.length → nid ∈ (getN st q).children.getD [] → q = pid) :
    NamesOk st₂ := by
  obtain ⟨hres, hconf, hst⟩ := set_vfs_ok_elim h
  have hsan : sanitizeMasks (pickProps payload SET_WHITELIST) "name"
      = .val (.str s) := by
    rw [sanitizeMasks_ne _ _ (by decide), hname]
  have hassignname : (assignProps (getN st nid)
      (sanitizeMasks (pickProps payload SET_WHITELIST))).fields "name"
      = some (.str s) := by
    rw [fields_assignProps, hsan]
  have hnewname : getNodeName (simplifyName (assignProps (getN st nid)
      (sanitizeMasks (pickProps payload SET_WHITELIST)))) = s := by
    rw [getNodeName_simplifyName]
    simp only [getNodeName, hassignname]
    rw [if_neg hs]
  by_cases hbs : s = getNodeName (getN st nid)
  · exact set_vfs_preserves_namesOk_same_name res st uri payload nid st₂ hN h
      (by rw [hnewname, hbs])
  · have hneed : (match pickProps payload SET_WHITELIST "name" with
        | .val v => v.truthy && (match v with
            | .str u => u ≠ getNodeName (getN st nid)
            | _ => true)
        | _ => false) = true := by
      rw [hname]
      simp only [PVal.truthy]
      rw [Bool.and_eq_true]
      constructor
      · simpa using hs
      · simpa using hbs
    have hany : (((getN st pid).children.getD []).any (fun x =>
        getNodeName (getN st x) == s)) = false := by
      unfold setConflict at hconf
      rw [hneed, Bool.true_and, hpid] at hconf
      simp only [hname] at hconf
      exact hconf
    subst hst
    by_cases hlt : nid < st.length
    · have hg : ∀ c, getN (setN st nid (simplifyName (assignProps (getN st nid)
          (sanitizeMasks (pickProps payload SET_WHITELIST))))) c
          = (if c = nid then simplifyName (assignProps (getN st nid)
              (sanitizeMasks (pickProps payload SET_WHITELIST))) else getN st c) := by
        intro c
        by_cases hc : c = nid
        · subst hc; rw [if_pos rfl, getN_setN_self hlt]
        · rw [if_neg hc, getN_setN_ne hc]
      intro i hi
      rw [length_setN] at hi
      unfold childNames
      have hchi : (getN (setN st nid (simplifyName (assignProps (getN st nid)
          (sanitizeMasks (pickProps payload SET_WHITELIST))))) i).children
          = (getN st i).children := by
        rw [hg i]
        by_cases hc : i = nid
        · rw [if_pos hc]
          subst hc
          rw [simplifyName_children, children_assignProps]
        · rw [if_neg hc]
      rw [hchi]
      have hmapped : List.map (fun c => getNodeName (getN (setN st nid
          (simplifyName (assignProps (getN st nid)
            (sanitizeMasks (pickProps payload SET_WHITELIST))))) c))
          ((getN st i).children.getD [])
          = List.map (fun c => if c = nid then s else getNodeName (getN st c))
            ((getN st i).children.getD []) := by
        apply List.map_congr_left
        intro c hc
        rw [hg c]
        by_cases hcn : c = nid
        · rw [if_pos hcn, if_pos hcn]
          exact hnewname
        · rw [if_neg hcn, if_neg hcn]
      rw [hmapped]
      by_cases hmem : nid ∈ (getN st i).children.getD []
      · have hip : i = pid := hcoh i hi hmem
        subst hip
        apply nodup_map_update _ (hN i hi)
        intro x hx
        rw [List.any_eq_false] at hany
        have := hany x hx
        simpa using this
      · have : List.map (fun c => if c = nid then s else getNodeName (getN st c))
            ((getN st i).children.getD [])
            = List.map (fun c => getNodeName (getN st c)) ((getN st i).children.getD []) := by
          apply List.map_congr_left
          intro c hc
          rw [if_neg (fun hcn => hmem (by rw [← hcn]; exact hc))]
        rw [this]
        exact hN i hi
    · rw [setN_oob (le_of_not_lt hlt)]
      exact hN

end HfsVfs

namespace HfsVfs

/-- **C1 (amended).** Sibling effective names stay pairwise distinct across
every successful `move_vfs`, across every successful `add_vfs` on a store
whose children ids are in range, and across every successful `set_vfs` that
either leaves the node's effective name unchanged or sets a nonempty explicit
name while `dirname(uri)` resolves to the node's only parent (the checked
rename).  A `set_vfs` that clears or omits the explicit name so that the
effective name falls back to the base name of `source` is *not* covered — it
can create duplicate sibling names (see the counterexample). -/
theorem vfs_sibling_name_uniqueness :
    (∀ (res : Resolver) (root : Nat) (st : Store) (fr par : Option String)
        (st₂ : Store),
        NamesOk st → move_vfs res root st fr par = (.ok (), st₂) → NamesOk st₂) ∧
    (∀ (res : Resolver) (fsIsDir : String → Option Bool) (rootId : Nat)
        (st : Store) (parent? source? name? : Option String) (nm : String)
        (st₂ : Store),
        NamesOk st → IdsOk st →
        add_vfs res fsIsDir rootId st parent? source? name? = (.ok nm, st₂) →
        NamesOk st₂) ∧
    (∀ (res : Resolver) (st : Store) (uri : String) (payload : Option Payload)
        (nid : Nat) (st₂ : Store),
        NamesOk st → set_vfs res st uri payload = (.ok nid, st₂) →
        getNodeName (simplifyName (assignProps (getN st nid)
            (sanitizeMasks (pickProps payload SET_WHITELIST))))
          = getNodeName (getN st nid) →
        NamesOk st₂) ∧
    (∀ (res : Resolver) (st : Store) (uri : String) (payload : Option Payload)
        (nid pid : Nat) (st₂ : Store) (s : String),
        NamesOk st → set_vfs res st uri payload = (.ok nid, st₂) →
        pickProps payload SET_WHITELIST "name" = .val (.str s) → s ≠ "" →
        res st (dirname uri) = some pid →
        (∀ q, q < st.length → nid ∈ (getN st q).children.getD [] → q = pid) →
        NamesOk st₂) :=
  ⟨fun res root st fr par st₂ hN h =>
      move_vfs_preserves_namesOk res root st fr par st₂ hN h,
   fun res fsIsDir rootId st parent? source? name? nm st₂ hN hIds h =>
      add_vfs_preserves_namesOk res fsIsDir rootId st parent? source? name? nm st₂ hN hIds h,
   fun res st uri payload nid st₂ hN h hsame =>
      set_vfs_preserves_namesOk_same_name res st uri payload nid st₂ hN h hsame,
   fun res st uri payload nid pid st₂ s hN h hname hs hpid hcoh =>
      set_vfs_preserves_namesOk_renamed res st uri payload nid pid st₂ s hN h hname hs hpid hcoh⟩

/-- Witness for the amended C1 on concrete data: after the successful move of
`/a` into `/b` on `stMove`, and after the colliding second add of
`report.txt`, sibling names are still pairwise distinct. -/
theorem vfs_sibling_name_uniqueness_witness :
    NamesOk (move_vfs resMove 0 stMove (some "/a") (some "/b")).2 ∧
    NamesOk stAdd2 :=
  ⟨vfs_sibling_name_uniqueness.1 resMove 0 stMove (some "/a") (some "/b")
      (move_vfs resMove 0 stMove (some "/a") (some "/b")).2 (by decide) (by rfl),
   vfs_sibling_name_uniqueness.2.1 noResolver noFsOracle 0 stAdd1 none none
      (some "report.txt") "report 2.txt" stAdd2 (by decide) (by decide) (by rfl)⟩

end HfsVfs
